import Mathlib

/-!
Verification development for `fix_ics_timezone.py`, a line-oriented ICS
timezone repair tool.  The Python source is embedded shallowly:

* text lines are `List Char` (the document's text is ASCII; Python string
  operations are modelled on that alphabet);
* `datetime.datetime` values are `PyDateTime`, a record of six `Nat`
  fields; operations that can raise in Python (`datetime(...)` with
  invalid fields, `strptime`, overflowing `+ timedelta`) return `Option`,
  with `none` standing for a raised exception;
* `datetime` comparison is Python's lexicographic tuple comparison,
  realised through the order-preserving packing `dtKey` (valid field
  ranges make the packing lexicographic);
* `strftime("%Y...")` follows the glibc behaviour CPython delegates to:
  the year is printed unpadded (four digits exactly when
  `1000 ≤ year ≤ 9999`, which covers every value the tool handles),
  while `%m %d %H %M %S` are zero-padded to width two.
-/

/-! ## Characters and Python string primitives -/

/-- Decimal digit characters, as produced by formatting. -/
def digitChar (n : Nat) : Char :=
  if n = 0 then '0' else if n = 1 then '1' else if n = 2 then '2'
  else if n = 3 then '3' else if n = 4 then '4' else if n = 5 then '5'
  else if n = 6 then '6' else if n = 7 then '7' else if n = 8 then '8'
  else if n = 9 then '9' else '*'

/-- Numeric value of a digit character. -/
def digitVal (c : Char) : Nat := c.toNat - 48

/-- ASCII digit test (the values reaching the parser are ASCII). -/
def isDigitC (c : Char) : Bool := decide (48 ≤ c.toNat) && decide (c.toNat ≤ 57)

/-- ASCII whitespace, as stripped by Python's `str.strip()`. -/
def isSpaceC (c : Char) : Bool :=
  c == ' ' || c == '\t' || c == '\n' || c == '\r' || c == '\x0b' || c == '\x0c'

/-- Python `str.strip()`: remove leading and trailing whitespace. -/
def pyStrip (l : List Char) : List Char :=
  ((l.dropWhile isSpaceC).reverse.dropWhile isSpaceC).reverse

/-- Python `line.lstrip("﻿")`: remove every leading byte-order mark. -/
def stripBOM (l : List Char) : List Char := l.dropWhile (fun c => c == '﻿')

/-- ASCII upper-casing, Python `str.upper()` on the ASCII range. -/
def toUpperC (c : Char) : Char :=
  if 97 ≤ c.toNat ∧ c.toNat ≤ 122 then Char.ofNat (c.toNat - 32) else c

/-- Python `str.upper()` over a line. -/
def pyUpper (l : List Char) : List Char := l.map toUpperC

/-- Python `str.startswith`. -/
def isPrefixL : List Char → List Char → Bool
  | [], _ => true
  | _ :: _, [] => false
  | a :: as, b :: bs => a == b && isPrefixL as bs

/-- Python's substring test `pat in s`. -/
def hasSub : List Char → List Char → Bool
  | pat, [] => pat.isEmpty
  | pat, c :: rest => isPrefixL pat (c :: rest) || hasSub pat rest

/-- Python `s.endswith("Z")`. -/
def endsWithZ (v : List Char) : Bool :=
  match v.getLast? with
  | some c => c == 'Z'
  | none => false

/-! ## The Gregorian calendar, as implemented by `datetime` -/

/-- Gregorian leap-year rule (`calendar.isleap`). -/
def isLeap (y : Nat) : Bool := (y % 4 == 0 && y % 100 != 0) || (y % 400 == 0)

/-- Length of a month; `0` for a month number outside `1..12`. -/
def daysInMonth (y m : Nat) : Nat :=
  if m = 2 then (if isLeap y then 29 else 28)
  else if m = 4 ∨ m = 6 ∨ m = 9 ∨ m = 11 then 30
  else if 1 ≤ m ∧ m ≤ 12 then 31
  else 0

/-- Days in year `y` strictly before month `m`. -/
def daysBeforeMonth (y : Nat) : Nat → Nat
  | 0 => 0
  | Nat.succ m => if m = 0 then 0 else daysBeforeMonth y m + daysInMonth y m

/-- Number of days in the years `1 .. y-1` (proleptic Gregorian). -/
def daysBeforeYear (y : Nat) : Nat :=
  365 * (y - 1) + (y - 1) / 4 + (y - 1) / 400 - (y - 1) / 100

/-- Length of a year. -/
def daysInYear (y : Nat) : Nat := if isLeap y then 366 else 365

/-- Python `date.toordinal`: day `0001-01-01` has ordinal `1`. -/
def toOrdinalYMD (y m d : Nat) : Nat :=
  daysBeforeYear y + daysBeforeMonth y m + d

/-- Python `date.weekday`: Monday is `0`, Sunday is `6`. -/
def weekdayYMD (y m d : Nat) : Nat := (toOrdinalYMD y m d + 6) % 7

/-- A `datetime.datetime` value (microseconds are always zero here). -/
structure PyDateTime where
  year : Nat
  month : Nat
  day : Nat
  hour : Nat
  minute : Nat
  second : Nat
deriving DecidableEq, Repr

/-- Field ranges accepted by the `datetime` constructor for a date. -/
def dateValid (y m d : Nat) : Bool :=
  decide (1 ≤ y) && decide (y ≤ 9999) && decide (1 ≤ m) && decide (m ≤ 12) &&
  decide (1 ≤ d) && decide (d ≤ daysInMonth y m)

/-- Field ranges accepted by the `datetime` constructor. -/
def validDT (dt : PyDateTime) : Bool :=
  dateValid dt.year dt.month dt.day &&
  decide (dt.hour ≤ 23) && decide (dt.minute ≤ 59) && decide (dt.second ≤ 59)

/-- Orders `PyDateTime` like Python's lexicographic tuple comparison:
for in-range fields the packing is strictly monotone in each position. -/
def dtKey (dt : PyDateTime) : Nat :=
  ((((dt.year * 16 + dt.month) * 32 + dt.day) * 24 + dt.hour) * 60 + dt.minute) * 60
    + dt.second

/-- Seconds since `0001-01-01T00:00:00` (Python's `_ymd2ord` arithmetic). -/
def dtSecs (dt : PyDateTime) : Nat :=
  (toOrdinalYMD dt.year dt.month dt.day - 1) * 86400 +
    dt.hour * 3600 + dt.minute * 60 + dt.second

/-- Seconds value of `datetime.max` (whole seconds): `9999-12-31T23:59:59`. -/
def maxSecs : Nat := dtSecs ⟨9999, 12, 31, 23, 59, 59⟩

/-- Year lookup by walking forward from year 1; `n` is a 0-based day
number, the fuel covers every representable year. -/
def yearFromAux : Nat → Nat → Nat → Nat × Nat
  | 0, y, n => (y, n)
  | Nat.succ f, y, n =>
      if n < daysInYear y then (y, n) else yearFromAux f (y + 1) (n - daysInYear y)

/-- Month lookup inside year `y`; `n` is a 0-based day of the year. -/
def monthFromAux (y : Nat) : Nat → Nat → Nat → Nat × Nat
  | 0, m, n => (m, n)
  | Nat.succ f, m, n =>
      if n < daysInMonth y m then (m, n)
      else monthFromAux y f (m + 1) (n - daysInMonth y m)

/-- Inverse of the ordinal computation: 0-based day number to `(y, m, d)`
(Python's `_ord2ymd`, realised by scanning years then months). -/
def ofDayNumber (n : Nat) : Nat × Nat × Nat :=
  let p := yearFromAux 9999 1 n
  let q := monthFromAux p.1 12 1 p.2
  (p.1, q.1, q.2 + 1)

/-- Seconds since `0001-01-01T00:00:00` to a normalised `datetime`. -/
def ofSecs (n : Nat) : PyDateTime :=
  let r := ofDayNumber (n / 86400)
  ⟨r.1, r.2.1, r.2.2, n % 86400 / 3600, n % 86400 % 3600 / 60, n % 60⟩

/-- Python `dt + timedelta(hours=k)`: raises `OverflowError` (here `none`)
when the result passes `datetime.max`. -/
def addHours (dt : PyDateTime) (k : Nat) : Option PyDateTime :=
  let n := dtSecs dt + k * 3600
  if n ≤ maxSecs then some (ofSecs n) else none

/-! ## Formatting and parsing of compact date-time literals -/

/-- Year as printed by glibc `strftime("%Y")`: decimal, no zero padding
(always four digits for the years `1000..9999` handled here). -/
def fmtYear (y : Nat) : List Char :=
  if y < 10 then [digitChar y]
  else if y < 100 then [digitChar (y / 10), digitChar (y % 10)]
  else if y < 1000 then [digitChar (y / 100), digitChar (y / 10 % 10), digitChar (y % 10)]
  else [digitChar (y / 1000), digitChar (y / 100 % 10), digitChar (y / 10 % 10),
        digitChar (y % 10)]

/-- Two-digit zero-padded field (`%m %d %H %M %S`; all values `< 100`). -/
def pad2 (n : Nat) : List Char := [digitChar (n / 10), digitChar (n % 10)]

/-- Python `dt.strftime("%Y%m%dT%H%M%S")`. -/
def fmtCompact (dt : PyDateTime) : List Char :=
  fmtYear dt.year ++ pad2 dt.month ++ pad2 dt.day ++
    'T' :: (pad2 dt.hour ++ pad2 dt.minute ++ pad2 dt.second)

/-- The `YYYYMMDDTHHMMSSZ` literal denoting a UTC instant (used to state
claims about the UTC conversion). -/
def fmtUTCZ (dt : PyDateTime) : List Char := fmtCompact dt ++ ['Z']

/-- Python `datetime.strptime(value, "%Y%m%dT%H%M%SZ")` on the fixed-width
shape enforced by the caller's `\d{8}T\d{6}Z` guard: `none` models the
`ValueError` raised on out-of-range calendar fields. -/
def strptimeUTCZ (v : List Char) : Option PyDateTime :=
  match v with
  | [y1, y2, y3, y4, mo1, mo2, d1, d2, t, h1, h2, mi1, mi2, s1, s2, z] =>
    if t == 'T' && z == 'Z' &&
       isDigitC y1 && isDigitC y2 && isDigitC y3 && isDigitC y4 &&
       isDigitC mo1 && isDigitC mo2 && isDigitC d1 && isDigitC d2 &&
       isDigitC h1 && isDigitC h2 && isDigitC mi1 && isDigitC mi2 &&
       isDigitC s1 && isDigitC s2 then
      let dt : PyDateTime :=
        ⟨digitVal y1 * 1000 + digitVal y2 * 100 + digitVal y3 * 10 + digitVal y4,
         digitVal mo1 * 10 + digitVal mo2,
         digitVal d1 * 10 + digitVal d2,
         digitVal h1 * 10 + digitVal h2,
         digitVal mi1 * 10 + digitVal mi2,
         digitVal s1 * 10 + digitVal s2⟩
      if validDT dt then some dt else none
    else none
  | _ => none

/-! ## The timezone rule engine (`last_sunday`, `is_dst_...`, `utc_z_to_local_...`) -/

/-- Backward search of `last_sunday`: the source decrements a `datetime`
by one day until its weekday is Sunday; starting from day 31 of a 31-day
month the latest Sunday is at least day 25, so only the day field moves. -/
def lastSundayAux (y m : Nat) : Nat → Nat
  | 0 => 0
  | Nat.succ d => if weekdayYMD y m (d + 1) == 6 then d + 1 else lastSundayAux y m d

/-- Source `last_sunday(year, month)`: builds `datetime(year, month, 31)`
(raising, i.e. `none`, when the month has no day 31) and steps backward to
a Sunday. -/
def last_sunday (y m : Nat) : Option PyDateTime :=
  if dateValid y m 31 then some ⟨y, m, lastSundayAux y m 31, 0, 0, 0⟩ else none

/-- Source `is_dst_europe_amsterdam(dt_local)`: true when the value lies in
`[last Sunday of March 02:00, last Sunday of October 03:00)` of its year. -/
def is_dst_europe_amsterdam (dt : PyDateTime) : Option Bool :=
  match last_sunday dt.year 3, last_sunday dt.year 10 with
  | some s, some e =>
      let start : PyDateTime := { s with hour := 2, minute := 0, second := 0 }
      let stop : PyDateTime := { e with hour := 3, minute := 0, second := 0 }
      some (decide (dtKey start ≤ dtKey dt) && decide (dtKey dt < dtKey stop))
  | _, _ => none

/-- Source `utc_z_to_local_eu_amsterdam(value)`: parse the UTC literal, add
one hour, re-add two hours when the candidate falls in DST, format without
the UTC marker. -/
def utc_z_to_local_eu_amsterdam (value : List Char) : Option (List Char) :=
  match strptimeUTCZ value with
  | none => none
  | some dtUtc =>
    match addHours dtUtc 1 with
    | none => none
    | some l1 =>
      match is_dst_europe_amsterdam l1 with
      | none => none
      | some b =>
        if b then
          match addHours dtUtc 2 with
          | none => none
          | some l2 => some (fmtCompact l2)
        else some (fmtCompact l1)

/-! ## The property line rewriter (`fix_dt_line`) -/

def dtstartL : List Char := "DTSTART".toList
def dtendL : List Char := "DTEND".toList
def valueDateL : List Char := "VALUE=DATE".toList
def tzidEqL : List Char := "TZID=".toList
def tzidSuffixL : List Char := ";TZID=Europe/Amsterdam".toList

/-- Fullmatch of `\d{8}T\d{6}Z` (the values reaching it are ASCII). -/
def isUTCShape (v : List Char) : Bool :=
  match v with
  | [a1, a2, a3, a4, a5, a6, a7, a8, t, b1, b2, b3, b4, b5, b6, z] =>
    isDigitC a1 && isDigitC a2 && isDigitC a3 && isDigitC a4 &&
    isDigitC a5 && isDigitC a6 && isDigitC a7 && isDigitC a8 &&
    t == 'T' &&
    isDigitC b1 && isDigitC b2 && isDigitC b3 && isDigitC b4 &&
    isDigitC b5 && isDigitC b6 && z == 'Z'
  | _ => false

/-- Python `re.match(r"^(DTSTART|DTEND)([^:]*)\:(.*)$", line)`: the key is
a literal prefix, `[^:]*` greedily takes everything (newlines included) up
to the first colon, `.` does not cross a newline and `$` also matches just
before a single trailing newline, which that match then swallows. -/
def matchKeyRest (line : List Char) : Option (List Char × List Char) :=
  if isPrefixL dtstartL line then some (dtstartL, line.drop 7)
  else if isPrefixL dtendL line then some (dtendL, line.drop 5)
  else none

def matchParamsValue (rest : List Char) : Option (List Char × List Char) :=
  match rest.dropWhile (fun c => c != ':') with
  | c :: rest2 =>
    if c = ':' then
      match rest2.dropWhile (fun c => c != '\n') with
      | [] => some (rest.takeWhile (fun c => c != ':'), rest2.takeWhile (fun c => c != '\n'))
      | [d] =>
        if d = '\n' then
          some (rest.takeWhile (fun c => c != ':'), rest2.takeWhile (fun c => c != '\n'))
        else none
      | _ => none
    else none
  | [] => none

def matchDtLine (line : List Char) : Option (List Char × List Char × List Char) :=
  match matchKeyRest line with
  | none => none
  | some (key, rest) =>
    match matchParamsValue rest with
    | none => none
    | some (params, v) => some (key, params, v)

/-- Source `fix_dt_line(line)`: pass through non-`DTSTART`/`DTEND` prefixes
and whole-day lines; on a pattern match convert an exactly
`\d{8}T\d{6}Z`-shaped value to local civil time (which may raise: `none`)
and append a `TZID` parameter when the substring `TZID=` is absent. -/
def fix_dt_line (line : List Char) : Option (List Char) :=
  if !(isPrefixL dtstartL line || isPrefixL dtendL line) then some line
  else if hasSub valueDateL line then some line
  else
    match matchDtLine line with
    | none => some line
    | some (key, params, value) =>
      match (if endsWithZ value && isUTCShape value then
               utc_z_to_local_eu_amsterdam value
             else some value) with
      | none => none
      | some v2 =>
        some (key ++ (if hasSub tzidEqL params then params else params ++ tzidSuffixL)
                  ++ ':' :: v2)

/-! ## The document augmenter and serializer -/

def vcalMarkerL : List Char := "BEGIN:VCALENDAR".toList
def xwrKeyL : List Char := "X-WR-TIMEZONE:".toList
def headerLineL : List Char := "X-WR-TIMEZONE:Europe/Amsterdam".toList
def vtBeginL : List Char := "BEGIN:VTIMEZONE".toList

/-- `VTIMEZONE_BLOCK.strip()`: one multi-line string, inserted as a single
element of the line list. -/
def vtBlockL : List Char :=
  ("BEGIN:VTIMEZONE\nTZID:Europe/Amsterdam\nBEGIN:STANDARD\n" ++
   "DTSTART:19701025T030000\nTZOFFSETFROM:+0200\nTZOFFSETTO:+0100\n" ++
   "TZNAME:CET\nEND:STANDARD\nBEGIN:DAYLIGHT\nDTSTART:19700329T020000\n" ++
   "TZOFFSETFROM:+0100\nTZOFFSETTO:+0200\nTZNAME:CEST\nEND:DAYLIGHT\n" ++
   "END:VTIMEZONE").toList

/-- Opening-marker test used by both insertion passes: strip a leading BOM,
strip whitespace, compare case-insensitively with `BEGIN:VCALENDAR`. -/
def isVcalMarker (l : List Char) : Bool :=
  pyUpper (pyStrip (stripBOM l)) == vcalMarkerL

/-- One pass over the lines appending each and inserting `ins` right after
the first opening marker; the flag reports whether an insertion happened. -/
def insAux (ins : List Char) : List (List Char) → List (List Char) × Bool
  | [] => ([], false)
  | l :: rest =>
    if isVcalMarker l then (l :: ins :: rest, true)
    else
      let r := insAux ins rest
      (l :: r.1, r.2)

/-- Source `ensure_calendar_x_wr_timezone(lines)`. -/
def ensure_calendar_x_wr_timezone (lines : List (List Char)) : List (List Char) :=
  if lines.any (fun l => isPrefixL xwrKeyL (pyStrip l)) then lines
  else
    match insAux headerLineL lines with
    | (out, true) => out
    | (out, false) => headerLineL :: out

/-- Source `ensure_vtimezone(lines)`. -/
def ensure_vtimezone (lines : List (List Char)) : List (List Char) :=
  if lines.any (fun l => pyStrip l == vtBeginL) then lines
  else
    match insAux vtBlockL lines with
    | (out, true) => out
    | (out, false) => vtBlockL :: out

/-- The document augmenter of `main`: declared-timezone header first, then
the timezone-definition block. -/
def augmentDoc (lines : List (List Char)) : List (List Char) :=
  ensure_vtimezone (ensure_calendar_x_wr_timezone lines)

/-- The list comprehension `[fix_dt_line(l) for l in lines]`: an exception
raised on any element propagates (`none`). -/
def mapFix : List (List Char) → Option (List (List Char))
  | [] => some []
  | l :: rest =>
    match fix_dt_line l with
    | none => none
    | some l2 =>
      match mapFix rest with
      | none => none
      | some rest2 => some (l2 :: rest2)

/-- Line-level pipeline of `main` after unfolding and splitting: rewrite
every start/end line (a raised error propagates as `none`), then augment. -/
def processedLines (lines : List (List Char)) : Option (List (List Char)) :=
  (mapFix lines).map augmentDoc

/-- Serializer of `main`: `"\r\n".join(fixed) + "\r\n"` (the separator is
written between elements and once at the very end). -/
def joinCRLF : List (List Char) → List Char
  | [] => ['\r', '\n']
  | [l] => l ++ ['\r', '\n']
  | l :: rest => l ++ '\r' :: '\n' :: joinCRLF rest

/-! ## Specification-side notions used to state the claims -/

/-- Day `d` is the latest Sunday of month `m` in year `y`. -/
def IsLastSundayOf (y m d : Nat) : Prop :=
  1 ≤ d ∧ d ≤ daysInMonth y m ∧ weekdayYMD y m d = 6 ∧
    ∀ e < daysInMonth y m + 1, d < e → weekdayYMD y m e ≠ 6

/-- The property name of an ICS content line: everything before the first
parameter separator or colon. -/
def propName (line : List Char) : List Char :=
  line.takeWhile (fun c => !(c == ';' || c == ':'))

/-- Split a parameter string at `;` (for counting genuine parameters). -/
def splitSemi : List Char → List (List Char)
  | [] => [[]]
  | c :: rest =>
    if c = ';' then [] :: splitSemi rest
    else
      match splitSemi rest with
      | [] => [[c]]
      | e :: es => (c :: e) :: es

/-- Number of genuine `TZID=` parameters in a parameter string. -/
def tzidCount (params : List Char) : Nat :=
  (splitSemi params).countP (fun e => isPrefixL tzidEqL e)

/-- Text in which every line terminator is the two-character CRLF pair:
no bare LF, no unpaired CR. -/
def crlfOnly : List Char → Bool
  | [] => true
  | [c] => !(c == '\r' || c == '\n')
  | c1 :: c2 :: rest =>
    if c1 = '\r' then c2 = '\n' && crlfOnly rest
    else !(c1 == '\n') && crlfOnly (c2 :: rest)

/-- Uniformly CRLF-terminated text: CRLF-paired throughout and, when
nonempty, ending with the pair. -/
def uniformCRLF (s : List Char) : Bool :=
  crlfOnly s && (s.isEmpty || s.reverse.take 2 == ['\n', '\r'])

/-! ## Claim C1: the three 2026 conversion examples -/

def c1InputMarch : List Char := "DTSTART:20260315T100000Z".toList
def c1InputJune : List Char := "DTSTART:20260615T100000Z".toList
def c1InputNov : List Char := "DTSTART:20261101T100000Z".toList
def c1OutputMarch : List Char := "DTSTART;TZID=Europe/Amsterdam:20260315T110000".toList
def c1OutputJune : List Char := "DTSTART;TZID=Europe/Amsterdam:20260615T120000".toList
def c1OutputNov : List Char := "DTSTART;TZID=Europe/Amsterdam:20261101T110000".toList

set_option maxRecDepth 400000 in
/-- C1: rewriting the 2026 example lines applies the standard offset before
the last Sunday of March and after the last Sunday of October and the
daylight offset in between, drops the UTC marker and appends the zone
identifier. -/
theorem C1_utc_conversion_examples_2026 :
    fix_dt_line c1InputMarch = some c1OutputMarch ∧
    fix_dt_line c1InputJune = some c1OutputJune ∧
    fix_dt_line c1InputNov = some c1OutputNov := by
  refine ⟨by decide, by decide, by decide⟩

/-! ## Claim C4: totality of the rewriter -/

def c4BadLine : List Char := "DTSTART:99999999T999999Z".toList

/-- C4 counterexample: a start line whose value has the exact
8-digit + `T` + 6-digit + `Z` shape but invalid calendar fields makes the
rewriter raise (`none`), so the rewriter is not total. -/
theorem C4_cex_rewriter_raises : fix_dt_line c4BadLine = none := by decide

/-! ## Claim C6: pass-through for unrelated lines -/

def c6Line : List Char := "DTENDX:foo".toList
def c6LineOut : List Char := "DTENDX;TZID=Europe/Amsterdam:foo".toList
def c6SummaryLine : List Char := "SUMMARY:hello".toList

/-- C6 counterexample: the line `DTENDX:foo` has property name `DTENDX`,
which is neither the start nor the end marker, yet the rewriter modifies
it (prefix match, not exact-name match). -/
theorem C6_cex_prefix_not_name :
    propName c6Line ≠ dtstartL ∧ propName c6Line ≠ dtendL ∧
    fix_dt_line c6Line = some c6LineOut ∧ c6LineOut ≠ c6Line := by
  refine ⟨by decide, by decide, by decide, by decide⟩

/-- C6 amended: every line that does not begin with the text `DTSTART` or
`DTEND` (a prefix test, not a property-name test) is returned unchanged,
verbatim. -/
theorem C6_amended_passthrough (line : List Char)
    (h1 : isPrefixL dtstartL line = false) (h2 : isPrefixL dtendL line = false) :
    fix_dt_line line = some line := by
  simp [fix_dt_line, h1, h2]

/-- C6 witness: the amended theorem applied to a `SUMMARY` line. -/
theorem C6_amended_passthrough_witness :
    isPrefixL dtstartL c6SummaryLine = false ∧ isPrefixL dtendL c6SummaryLine = false ∧
    fix_dt_line c6SummaryLine = some c6SummaryLine :=
  ⟨by decide, by decide, C6_amended_passthrough c6SummaryLine (by decide) (by decide)⟩

/-! ## Claim C5: idempotence of the document augmenter -/

def endVcalL : List Char := "END:VCALENDAR".toList
def c5Doc : List (List Char) := [vcalMarkerL, endVcalL]

set_option maxRecDepth 40000 in
/-- C5: applying the augmenter twice to a bare calendar duplicates the
timezone-definition block: the block is inserted as a single multi-line
element, whose stripped form is the whole block and never the bare
`BEGIN:VTIMEZONE` the presence check looks for, so the guard that is meant
to make the insertion idempotent cannot see the block it inserted. -/
theorem C5_bug_augment_not_idempotent :
    augmentDoc c5Doc = [vcalMarkerL, vtBlockL, headerLineL, endVcalL] ∧
    augmentDoc (augmentDoc c5Doc) =
      [vcalMarkerL, vtBlockL, vtBlockL, headerLineL, endVcalL] ∧
    augmentDoc (augmentDoc c5Doc) ≠ augmentDoc c5Doc := by
  refine ⟨by decide, by decide, by decide⟩

/-! ## Claim C7: CRLF termination of the serialized output -/

set_option maxRecDepth 40000 in
/-- C7 counterexample: the serialized full-pipeline output of a bare
calendar is not uniformly CRLF-terminated, because the inserted
timezone-definition block is one element whose inner lines are separated
by bare LF. -/
theorem C7_cex_pipeline_not_uniform_crlf :
    uniformCRLF (joinCRLF (augmentDoc c5Doc)) = false := by decide

theorem crlfOnly_cons_clean (c : Char) (s : List Char)
    (h1 : c ≠ '\n') (h2 : c ≠ '\r') : crlfOnly (c :: s) = crlfOnly s := by
  cases s with
  | nil => simp [crlfOnly, h1, h2]
  | cons c2 rest => simp [crlfOnly, h1, h2]

theorem crlfOnly_append_clean (l s : List Char)
    (h : ∀ c ∈ l, c ≠ '\n' ∧ c ≠ '\r') : crlfOnly (l ++ s) = crlfOnly s := by
  induction l with
  | nil => rfl
  | cons c l ih =>
    have hc := h c (List.mem_cons_self c l)
    rw [List.cons_append, crlfOnly_cons_clean c (l ++ s) hc.1 hc.2]
    exact ih (fun c hm => h c (List.mem_cons_of_mem _ hm))

theorem joinCRLF_ends_crlf (ls : List (List Char)) :
    ∃ a, joinCRLF ls = a ++ ['\r', '\n'] := by
  induction ls with
  | nil => exact ⟨[], rfl⟩
  | cons l rest ih =>
    cases rest with
    | nil => exact ⟨l, rfl⟩
    | cons l2 rest2 =>
      obtain ⟨a, ha⟩ := ih
      exact ⟨l ++ '\r' :: '\n' :: a, by simp [joinCRLF, ha]⟩

theorem crlfOnly_joinCRLF (ls : List (List Char))
    (h : ∀ l ∈ ls, ∀ c ∈ l, c ≠ '\n' ∧ c ≠ '\r') :
    crlfOnly (joinCRLF ls) = true := by
  induction ls with
  | nil => decide
  | cons l rest ih =>
    cases rest with
    | nil =>
      have := crlfOnly_append_clean l ['\r', '\n'] (h l (List.mem_cons_self l []))
      simpa [joinCRLF] using this
    | cons l2 rest2 =>
      have h1 := crlfOnly_append_clean l ('\r' :: '\n' :: joinCRLF (l2 :: rest2))
        (h l (List.mem_cons_self l _))
      have h2 : crlfOnly ('\r' :: '\n' :: joinCRLF (l2 :: rest2)) =
          crlfOnly (joinCRLF (l2 :: rest2)) := by
        cases hj : joinCRLF (l2 :: rest2) with
        | nil => simp [crlfOnly]
        | cons x xs => simp [crlfOnly]
      have hd : joinCRLF (l :: l2 :: rest2) = l ++ '\r' :: '\n' :: joinCRLF (l2 :: rest2) := rfl
      rw [hd, h1, h2]
      exact ih (fun l' hm => h l' (List.mem_cons_of_mem _ hm))

/-- C7 amended: the serializer terminates every element of the line
sequence, the last included, with the CRLF pair, so whenever no element
itself contains a bare CR or LF the output is uniformly CRLF-terminated;
the full-pipeline output violates this because the timezone-definition
block is inserted as a single element with embedded bare LF separators. -/
theorem C7_amended_serializer_crlf (ls : List (List Char))
    (h : ∀ l ∈ ls, ∀ c ∈ l, c ≠ '\n' ∧ c ≠ '\r') :
    uniformCRLF (joinCRLF ls) = true := by
  obtain ⟨a, ha⟩ := joinCRLF_ends_crlf ls
  have hc := crlfOnly_joinCRLF ls h
  rw [uniformCRLF, hc, ha]
  simp [List.reverse_append]

def c7WitnessDoc : List (List Char) := ["AB".toList, "C".toList]

/-- C7 witness: the amended theorem applied to a two-line document. -/
theorem C7_amended_serializer_crlf_witness :
    (∀ l ∈ c7WitnessDoc, ∀ c ∈ l, c ≠ '\n' ∧ c ≠ '\r') ∧
    uniformCRLF (joinCRLF c7WitnessDoc) = true :=
  ⟨by decide, C7_amended_serializer_crlf c7WitnessDoc (by decide)⟩

/-! ## Claim C3: the last-Sunday computation -/

theorem exists_sunday_25_31 (y m : Nat) :
    ∃ j, 25 ≤ j ∧ j ≤ 31 ∧ weekdayYMD y m j = 6 := by
  refine ⟨25 + (7 - (daysBeforeYear y + daysBeforeMonth y m + 25) % 7) % 7,
    by omega, by omega, ?_⟩
  unfold weekdayYMD toOrdinalYMD
  omega

theorem lastSundayAux_spec (y m : Nat) :
    ∀ k, (∃ j, 1 ≤ j ∧ j ≤ k ∧ weekdayYMD y m j = 6) →
      1 ≤ lastSundayAux y m k ∧ lastSundayAux y m k ≤ k ∧
      weekdayYMD y m (lastSundayAux y m k) = 6 ∧
      ∀ e, lastSundayAux y m k < e → e ≤ k → weekdayYMD y m e ≠ 6 := by
  intro k
  induction k with
  | zero =>
    rintro ⟨j, hj1, hj2, _⟩
    omega
  | succ d ih =>
    rintro ⟨j, hj1, hj2, hj3⟩
    by_cases h : weekdayYMD y m (d + 1) = 6
    · have hred : lastSundayAux y m (d + 1) = d + 1 := by
        simp only [lastSundayAux]
        rw [if_pos (by simpa using h)]
      rw [hred]
      exact ⟨by omega, Nat.le_refl _, h, fun e he1 he2 => by omega⟩
    · have hred : lastSundayAux y m (d + 1) = lastSundayAux y m d := by
        simp only [lastSundayAux]
        rw [if_neg (by simpa using h)]
      have hjd : j ≤ d := by
        by_contra hc
        have hje : j = d + 1 := by omega
        exact h (hje ▸ hj3)
      obtain ⟨h1, h2, h3, h4⟩ := ih ⟨j, hj1, hjd, hj3⟩
      rw [hred]
      refine ⟨h1, Nat.le_succ_of_le h2, h3, fun e he1 he2 => ?_⟩
      by_cases he : e = d + 1
      · exact he ▸ h
      · exact h4 e he1 (by omega)

theorem month_bounds_of_31 (y m : Nat) (h : daysInMonth y m = 31) :
    1 ≤ m ∧ m ≤ 12 := by
  unfold daysInMonth at h
  split_ifs at h <;> omega

def c3AprilYear : Nat := 2026

/-- C3 counterexample: `last_sunday(2026, 4)` constructs
`datetime(2026, 4, 31)`, which raises, so the function does not handle
months without a day 31 (April has 30 days). -/
theorem C3_cex_april_raises : last_sunday c3AprilYear 4 = none := by decide

/-- C3 amended: for every representable year and every month that has a
day 31, `last_sunday` returns the latest Sunday of that month; in
particular March 2026 gives the 29th and October 2026 the 25th.  For a
month with fewer than 31 days the function raises instead of returning a
Sunday. -/
theorem C3_amended_last_sunday :
    (∀ y m, 1 ≤ y → y ≤ 9999 → daysInMonth y m = 31 →
      ∃ d, last_sunday y m = some ⟨y, m, d, 0, 0, 0⟩ ∧ IsLastSundayOf y m d) ∧
    last_sunday 2026 3 = some ⟨2026, 3, 29, 0, 0, 0⟩ ∧
    last_sunday 2026 10 = some ⟨2026, 10, 25, 0, 0, 0⟩ := by
  refine ⟨?_, by decide, by decide⟩
  intro y m hy1 hy2 hm
  obtain ⟨hm1, hm2⟩ := month_bounds_of_31 y m hm
  have hvalid : dateValid y m 31 = true := by
    unfold dateValid
    simp only [Bool.and_eq_true, decide_eq_true_eq]
    omega
  obtain ⟨j, hj1, hj2, hj3⟩ := exists_sunday_25_31 y m
  obtain ⟨h1, h2, h3, h4⟩ := lastSundayAux_spec y m 31 ⟨j, by omega, hj2, hj3⟩
  refine ⟨lastSundayAux y m 31, ?_, h1, by omega, h3, ?_⟩
  · unfold last_sunday
    rw [hvalid]
    simp
  · intro e he1 he2
    exact h4 e he2 (by omega)

/-- C3 witness: the amended theorem applied to January 2026. -/
theorem C3_amended_last_sunday_witness :
    (1 ≤ c3AprilYear ∧ c3AprilYear ≤ 9999 ∧ daysInMonth c3AprilYear 1 = 31) ∧
    ∃ d, last_sunday c3AprilYear 1 = some ⟨c3AprilYear, 1, d, 0, 0, 0⟩ ∧
      IsLastSundayOf c3AprilYear 1 d :=
  ⟨⟨by decide, by decide, by decide⟩,
   C3_amended_last_sunday.1 c3AprilYear 1 (by decide) (by decide) (by decide)⟩

/-! ## Claim C4: exact characterization of when the rewriter raises -/

def c4PlainLine : List Char := "BEGIN:VEVENT".toList

/-- C4 amended: the rewriter returns the original line on every pattern
mismatch, leaves a non-`\d{8}T\d{6}Z`-shaped value as-is, and raises
(`none`) exactly in one situation: the pattern matched and the value has
the exact UTC-marked shape but its conversion raises (invalid calendar
fields, or a local time past the supported year range). -/
theorem C4_amended_rewriter_totality :
    (∀ line : List Char, matchDtLine line = none → fix_dt_line line = some line) ∧
    (∀ line k p v, matchDtLine line = some (k, p, v) →
      (isPrefixL dtstartL line || isPrefixL dtendL line) = true →
      hasSub valueDateL line = false →
      (endsWithZ v && isUTCShape v) = false →
      fix_dt_line line =
        some (k ++ (if hasSub tzidEqL p then p else p ++ tzidSuffixL) ++ ':' :: v)) ∧
    (∀ line : List Char, fix_dt_line line = none →
      ∃ k p v, matchDtLine line = some (k, p, v) ∧
        (endsWithZ v && isUTCShape v) = true ∧
        utc_z_to_local_eu_amsterdam v = none) := by
  refine ⟨?_, ?_, ?_⟩
  · intro line h
    unfold fix_dt_line
    split_ifs <;> simp [h]
  · intro line k p v hm hpre hval hshape
    unfold fix_dt_line
    rw [if_neg (by simp [hpre]), if_neg (by simp [hval]), hm]
    simp only [hshape]
    rw [if_neg (by simp)]
  · intro line h
    unfold fix_dt_line at h
    split_ifs at h with h1 h2
    cases hm : matchDtLine line with
    | none =>
      rw [hm] at h
      exact absurd h (by simp)
    | some kpv =>
      obtain ⟨k, p, v⟩ := kpv
      rw [hm] at h
      dsimp only at h
      by_cases hs : (endsWithZ v && isUTCShape v) = true
      · rw [if_pos hs] at h
        cases hc : utc_z_to_local_eu_amsterdam v with
        | none => exact ⟨k, p, v, rfl, hs, hc⟩
        | some v2 =>
          rw [hc] at h
          exact absurd h (by simp)
      · rw [if_neg hs] at h
        exact absurd h (by simp)

/-- C4 witness: the mismatch clause of the amended theorem applied to a
`BEGIN:VEVENT` line. -/
theorem C4_amended_rewriter_totality_witness :
    matchDtLine c4PlainLine = none ∧ fix_dt_line c4PlainLine = some c4PlainLine :=
  ⟨by decide, C4_amended_rewriter_totality.1 c4PlainLine (by decide)⟩

/-! ## Claim C8: the daylight predicate is the half-open DST interval -/

theorem last_sunday_spec (y m : Nat) (hy1 : 1 ≤ y) (hy2 : y ≤ 9999)
    (hm : daysInMonth y m = 31) :
    ∃ d, last_sunday y m = some ⟨y, m, d, 0, 0, 0⟩ ∧ IsLastSundayOf y m d := by
  obtain ⟨hm1, hm2⟩ := month_bounds_of_31 y m hm
  have hvalid : dateValid y m 31 = true := by
    unfold dateValid
    simp only [Bool.and_eq_true, decide_eq_true_eq]
    omega
  obtain ⟨j, hj1, hj2, hj3⟩ := exists_sunday_25_31 y m
  obtain ⟨h1, h2, h3, h4⟩ := lastSundayAux_spec y m 31 ⟨j, by omega, hj2, hj3⟩
  refine ⟨lastSundayAux y m 31, ?_, h1, by omega, h3, ?_⟩
  · unfold last_sunday
    rw [hvalid]
    simp
  · intro e he1 he2
    exact h4 e he2 (by omega)

theorem lastSunday_unique (y m d d' : Nat)
    (h : IsLastSundayOf y m d) (h' : IsLastSundayOf y m d') : d = d' := by
  obtain ⟨h1, h2, h3, h4⟩ := h
  obtain ⟨h1', h2', h3', h4'⟩ := h'
  rcases Nat.lt_trichotomy d d' with hlt | heq | hgt
  · exact absurd h3' (h4 d' (by omega) hlt)
  · exact heq
  · exact absurd h3 (h4' d (by omega) hgt)

/-- C8: for every constructible local date-time the daylight predicate is
computed, and it holds exactly when the value lies in the half-open
interval from the last Sunday of March at 02:00 to the last Sunday of
October at 03:00 of its own year (in particular the fall-back anchor
itself is not daylight). -/
theorem C8_daylight_interval (dt : PyDateTime) (hv : validDT dt = true) :
    ∃ b, is_dst_europe_amsterdam dt = some b ∧
      (b = true ↔ ∃ ds de, IsLastSundayOf dt.year 3 ds ∧ IsLastSundayOf dt.year 10 de ∧
        dtKey ⟨dt.year, 3, ds, 2, 0, 0⟩ ≤ dtKey dt ∧
        dtKey dt < dtKey ⟨dt.year, 10, de, 3, 0, 0⟩) := by
  have hy1 : 1 ≤ dt.year := by
    unfold validDT dateValid at hv
    simp only [Bool.and_eq_true, decide_eq_true_eq] at hv
    omega
  have hy2 : dt.year ≤ 9999 := by
    unfold validDT dateValid at hv
    simp only [Bool.and_eq_true, decide_eq_true_eq] at hv
    omega
  obtain ⟨ds, hdsEq, hds⟩ := last_sunday_spec dt.year 3 hy1 hy2 (by norm_num [daysInMonth])
  obtain ⟨de, hdeEq, hde⟩ := last_sunday_spec dt.year 10 hy1 hy2 (by norm_num [daysInMonth])
  unfold is_dst_europe_amsterdam
  rw [hdsEq, hdeEq]
  refine ⟨_, rfl, ?_⟩
  constructor
  · intro hb
    rw [Bool.and_eq_true, decide_eq_true_eq, decide_eq_true_eq] at hb
    exact ⟨ds, de, hds, hde, hb.1, hb.2⟩
  · rintro ⟨ds', de', hds', hde', hle, hlt⟩
    have e1 : ds' = ds := lastSunday_unique dt.year 3 ds' ds hds' hds
    have e2 : de' = de := lastSunday_unique dt.year 10 de' de hde' hde
    rw [Bool.and_eq_true, decide_eq_true_eq, decide_eq_true_eq]
    subst e1
    subst e2
    exact ⟨hle, hlt⟩

def c8WitnessDT : PyDateTime := ⟨2026, 6, 15, 12, 0, 0⟩

/-- C8 witness: the theorem applied to a mid-June 2026 local time. -/
theorem C8_daylight_interval_witness :
    validDT c8WitnessDT = true ∧
    ∃ b, is_dst_europe_amsterdam c8WitnessDT = some b ∧
      (b = true ↔ ∃ ds de, IsLastSundayOf c8WitnessDT.year 3 ds ∧
        IsLastSundayOf c8WitnessDT.year 10 de ∧
        dtKey ⟨c8WitnessDT.year, 3, ds, 2, 0, 0⟩ ≤ dtKey c8WitnessDT ∧
        dtKey c8WitnessDT < dtKey ⟨c8WitnessDT.year, 10, de, 3, 0, 0⟩) :=
  ⟨by decide, C8_daylight_interval c8WitnessDT (by decide)⟩

/-! ## Claim C9: presence of the zone-identifier parameter -/

theorem isPrefixL_self_append (x r : List Char) : isPrefixL x (x ++ r) = true := by
  induction x with
  | nil => rfl
  | cons c cs ih => simp [isPrefixL, ih]

theorem isPrefixL_extend (pat x b : List Char) (h : isPrefixL pat x = true) :
    isPrefixL pat (x ++ b) = true := by
  induction pat generalizing x with
  | nil => rfl
  | cons c cs ih =>
    cases x with
    | nil => simp [isPrefixL] at h
    | cons d ds =>
      rw [isPrefixL, Bool.and_eq_true] at h
      rw [List.cons_append, isPrefixL, Bool.and_eq_true]
      exact ⟨h.1, ih ds h.2⟩

theorem hasSub_of_isPrefixL (pat s : List Char) (h : isPrefixL pat s = true) :
    hasSub pat s = true := by
  cases s with
  | nil =>
    cases pat with
    | nil => rfl
    | cons c cs => simp [isPrefixL] at h
  | cons c rest => simp [hasSub, h]

theorem hasSub_append_left (pat a s : List Char) (h : hasSub pat s = true) :
    hasSub pat (a ++ s) = true := by
  induction a with
  | nil => exact h
  | cons c a' ih =>
    rw [List.cons_append]
    cases hpre : isPrefixL pat (c :: (a' ++ s)) <;> simp [hasSub, hpre, ih]

theorem splitSemi_semi (s : List Char) : splitSemi (';' :: s) = [] :: splitSemi s := by
  simp [splitSemi]

theorem splitSemi_cons_ne (c : Char) (s : List Char) (h : List Char)
    (es : List (List Char)) (hc : c ≠ ';') (heq : splitSemi s = h :: es) :
    splitSemi (c :: s) = (c :: h) :: es := by
  rw [splitSemi, if_neg hc, heq]

theorem splitSemi_head_pre (p : List Char) :
    ∃ h es, splitSemi p = h :: es ∧ ∃ t, p = h ++ t := by
  induction p with
  | nil => exact ⟨[], [], rfl, [], rfl⟩
  | cons c rest ih =>
    by_cases hc : c = ';'
    · subst hc
      exact ⟨[], splitSemi rest, splitSemi_semi rest, ';' :: rest, rfl⟩
    · obtain ⟨h, es, heq, t, ht⟩ := ih
      exact ⟨c :: h, es, splitSemi_cons_ne c rest h es hc heq, t, by simp [ht]⟩

theorem splitSemi_infix (p : List Char) :
    ∀ e ∈ splitSemi p, ∃ a b, p = a ++ e ++ b := by
  induction p with
  | nil =>
    intro e he
    simp [splitSemi] at he
    exact ⟨[], [], by simp [he]⟩
  | cons c rest ih =>
    intro e he
    by_cases hc : c = ';'
    · subst hc
      rw [splitSemi_semi] at he
      rcases List.mem_cons.mp he with he1 | he2
      · exact ⟨[], ';' :: rest, by simp [he1]⟩
      · obtain ⟨a, b, hab⟩ := ih e he2
        exact ⟨';' :: a, b, by simp [hab]⟩
    · obtain ⟨h, es, heq, t, ht⟩ := splitSemi_head_pre rest
      rw [splitSemi_cons_ne c rest h es hc heq] at he
      rcases List.mem_cons.mp he with he1 | he2
      · exact ⟨[], t, by simp [he1, ht]⟩
      · obtain ⟨a, b, hab⟩ := ih e (heq ▸ List.mem_cons_of_mem h he2)
        exact ⟨c :: a, b, by simp [hab]⟩

theorem splitSemi_ne_nil (p : List Char) : splitSemi p ≠ [] := by
  obtain ⟨h, es, heq, _⟩ := splitSemi_head_pre p
  rw [heq]
  exact List.cons_ne_nil h es

theorem splitSemi_append_semi (p s : List Char) :
    splitSemi (p ++ ';' :: s) = splitSemi p ++ splitSemi s := by
  induction p with
  | nil => rw [List.nil_append, splitSemi_semi]; rfl
  | cons c p' ih =>
    by_cases hc : c = ';'
    · subst hc
      rw [List.cons_append, splitSemi_semi, ih, splitSemi_semi]
      rfl
    · obtain ⟨h, es, heq, _⟩ := splitSemi_head_pre p'
      have hne : splitSemi (p' ++ ';' :: s) = h :: (es ++ splitSemi s) := by
        rw [ih, heq]
        rfl
      rw [List.cons_append, splitSemi_cons_ne c (p' ++ ';' :: s) h (es ++ splitSemi s) hc hne,
        splitSemi_cons_ne c p' h es hc heq]
      rfl

theorem hasSub_of_entry (pat p e : List Char) (he : e ∈ splitSemi p)
    (hpre : isPrefixL pat e = true) : hasSub pat p = true := by
  obtain ⟨a, b, hab⟩ := splitSemi_infix p e he
  rw [hab, List.append_assoc]
  exact hasSub_append_left pat a (e ++ b)
    (hasSub_of_isPrefixL pat (e ++ b) (isPrefixL_extend pat e b hpre))

theorem tzidCount_append_suffix (p : List Char) (h : hasSub tzidEqL p = false) :
    tzidCount (p ++ tzidSuffixL) = 1 := by
  have hsfx : tzidSuffixL = ';' :: ("TZID=Europe/Amsterdam").toList := rfl
  rw [tzidCount, hsfx, splitSemi_append_semi, List.countP_append]
  have h0 : (splitSemi p).countP (fun e => isPrefixL tzidEqL e) = 0 := by
    rw [List.countP_eq_zero]
    intro e he
    cases hpe : isPrefixL tzidEqL e
    · simp
    · exact absurd (hasSub_of_entry tzidEqL p e he hpe) (by simp [h])
  rw [h0]
  decide

theorem takeWhile_colon (p v : List Char) (hp : ∀ c ∈ p, c ≠ ':') :
    (p ++ ':' :: v).takeWhile (fun c => c != ':') = p := by
  induction p with
  | nil =>
    rw [List.nil_append]
    exact List.takeWhile_cons_of_neg (by simp)
  | cons c p' ih =>
    rw [List.cons_append,
      List.takeWhile_cons_of_pos (by simpa using hp c (List.mem_cons_self c p')),
      ih (fun d hd => hp d (List.mem_cons_of_mem c hd))]

theorem dropWhile_colon (p v : List Char) (hp : ∀ c ∈ p, c ≠ ':') :
    (p ++ ':' :: v).dropWhile (fun c => c != ':') = ':' :: v := by
  induction p with
  | nil =>
    rw [List.nil_append]
    exact List.dropWhile_cons_of_neg (by simp)
  | cons c p' ih =>
    rw [List.cons_append,
      List.dropWhile_cons_of_pos (by simpa using hp c (List.mem_cons_self c p')),
      ih (fun d hd => hp d (List.mem_cons_of_mem c hd))]

theorem takeWhile_nl_self (v : List Char) (hv : ∀ c ∈ v, c ≠ '\n') :
    v.takeWhile (fun c => c != '\n') = v := by
  induction v with
  | nil => rfl
  | cons c v' ih =>
    rw [List.takeWhile_cons_of_pos (by simpa using hv c (List.mem_cons_self c v')),
      ih (fun d hd => hv d (List.mem_cons_of_mem c hd))]

theorem dropWhile_nl_nil (v : List Char) (hv : ∀ c ∈ v, c ≠ '\n') :
    v.dropWhile (fun c => c != '\n') = [] := by
  induction v with
  | nil => rfl
  | cons c v' ih =>
    rw [List.dropWhile_cons_of_pos (by simpa using hv c (List.mem_cons_self c v')),
      ih (fun d hd => hv d (List.mem_cons_of_mem c hd))]

theorem isPrefixL_dtstart_dtend (r : List Char) :
    isPrefixL dtstartL (dtendL ++ r) = false := by
  have h1 : dtendL ++ r = 'D' :: 'T' :: 'E' :: 'N' :: 'D' :: r := rfl
  have h2 : dtstartL = ['D', 'T', 'S', 'T', 'A', 'R', 'T'] := rfl
  rw [h1, h2]
  simp [isPrefixL]

theorem matchKeyRest_reconstruct (k r : List Char) (hk : k = dtstartL ∨ k = dtendL) :
    matchKeyRest (k ++ r) = some (k, r) := by
  rcases hk with rfl | rfl
  · unfold matchKeyRest
    rw [if_pos (isPrefixL_self_append dtstartL r)]
    exact congrArg (fun x => some (dtstartL, x)) (List.drop_left' rfl)
  · unfold matchKeyRest
    rw [if_neg (by simp [isPrefixL_dtstart_dtend]),
      if_pos (isPrefixL_self_append dtendL r)]
    exact congrArg (fun x => some (dtendL, x)) (List.drop_left' rfl)

theorem matchParamsValue_reconstruct (p v : List Char)
    (hp : ∀ c ∈ p, c ≠ ':') (hv : ∀ c ∈ v, c ≠ '\n') :
    matchParamsValue (p ++ ':' :: v) = some (p, v) := by
  unfold matchParamsValue
  rw [dropWhile_colon p v hp]
  dsimp only
  rw [if_pos rfl, dropWhile_nl_nil v hv]
  dsimp only
  rw [takeWhile_colon p v hp, takeWhile_nl_self v hv]

theorem matchDtLine_reconstruct (k p v : List Char)
    (hk : k = dtstartL ∨ k = dtendL) (hp : ∀ c ∈ p, c ≠ ':') (hv : ∀ c ∈ v, c ≠ '\n') :
    matchDtLine (k ++ p ++ ':' :: v) = some (k, p, v) := by
  unfold matchDtLine
  rw [List.append_assoc, matchKeyRest_reconstruct k (p ++ ':' :: v) hk]
  dsimp only
  rw [matchParamsValue_reconstruct p v hp hv]

theorem matchParamsValue_props (rest ps vv : List Char)
    (h : matchParamsValue rest = some (ps, vv)) :
    (∀ c ∈ ps, c ≠ ':') ∧ (∀ c ∈ vv, c ≠ '\n') := by
  have hgoal : ps = rest.takeWhile (fun c => c != ':') ∧
      ∃ r2 : List Char, vv = r2.takeWhile (fun c => c != '\n') := by
    unfold matchParamsValue at h
    split at h
    · split at h
      · split at h
        · simp only [Option.some.injEq, Prod.mk.injEq] at h
          exact ⟨h.1.symm, _, h.2.symm⟩
        · split at h
          · simp only [Option.some.injEq, Prod.mk.injEq] at h
            exact ⟨h.1.symm, _, h.2.symm⟩
          · exact absurd h (by simp)
        · exact absurd h (by simp)
      · exact absurd h (by simp)
    · exact absurd h (by simp)
  obtain ⟨hps, r2, hvv⟩ := hgoal
  subst hps
  subst hvv
  exact ⟨fun c hc => by simpa using List.mem_takeWhile_imp hc,
    fun c hc => by simpa using List.mem_takeWhile_imp hc⟩

theorem matchKeyRest_props (line key rest : List Char)
    (h : matchKeyRest line = some (key, rest)) : key = dtstartL ∨ key = dtendL := by
  unfold matchKeyRest at h
  split_ifs at h
  · left
    have h2 := congrArg (Option.map Prod.fst) h
    simpa using h2.symm
  · right
    have h2 := congrArg (Option.map Prod.fst) h
    simpa using h2.symm

theorem matchDtLine_props (line k p v : List Char)
    (h : matchDtLine line = some (k, p, v)) :
    (k = dtstartL ∨ k = dtendL) ∧ (∀ c ∈ p, c ≠ ':') ∧ (∀ c ∈ v, c ≠ '\n') := by
  unfold matchDtLine at h
  cases hkr : matchKeyRest line with
  | none =>
    rw [hkr] at h
    exact absurd h (by simp)
  | some kr =>
    obtain ⟨key, rest⟩ := kr
    rw [hkr] at h
    dsimp only at h
    cases hpv : matchParamsValue rest with
    | none =>
      rw [hpv] at h
      exact absurd h (by simp)
    | some pv =>
      obtain ⟨ps, vs⟩ := pv
      rw [hpv] at h
      dsimp only at h
      simp only [Option.some.injEq, Prod.mk.injEq] at h
      obtain ⟨hk, hp, hv⟩ := h
      subst hk
      subst hp
      subst hv
      obtain ⟨h1, h2⟩ := matchParamsValue_props rest ps vs hpv
      exact ⟨matchKeyRest_props line key rest hkr, h1, h2⟩

theorem digitChar_props (n : Nat) :
    digitChar n ≠ '\n' ∧ digitChar n ≠ 'Z' ∧ digitChar n ≠ ':' := by
  unfold digitChar
  split_ifs <;> exact ⟨by decide, by decide, by decide⟩

theorem mem_pad2 (n : Nat) : ∀ c ∈ pad2 n, ∃ k, c = digitChar k := by
  intro c hc
  simp only [pad2, List.mem_cons, List.not_mem_nil, or_false] at hc
  rcases hc with rfl | rfl
  · exact ⟨n / 10, rfl⟩
  · exact ⟨n % 10, rfl⟩

theorem mem_fmtYear (y : Nat) : ∀ c ∈ fmtYear y, ∃ k, c = digitChar k := by
  intro c hc
  unfold fmtYear at hc
  split_ifs at hc <;>
    simp only [List.mem_cons, List.not_mem_nil, or_false] at hc
  · exact ⟨y, hc⟩
  · rcases hc with rfl | rfl
    · exact ⟨y / 10, rfl⟩
    · exact ⟨y % 10, rfl⟩
  · rcases hc with rfl | rfl | rfl
    · exact ⟨y / 100, rfl⟩
    · exact ⟨y / 10 % 10, rfl⟩
    · exact ⟨y % 10, rfl⟩
  · rcases hc with rfl | rfl | rfl | rfl
    · exact ⟨y / 1000, rfl⟩
    · exact ⟨y / 100 % 10, rfl⟩
    · exact ⟨y / 10 % 10, rfl⟩
    · exact ⟨y % 10, rfl⟩

theorem fmtCompact_chars (dt : PyDateTime) :
    ∀ c ∈ fmtCompact dt, c = 'T' ∨ ∃ k, c = digitChar k := by
  intro c hc
  unfold fmtCompact at hc
  simp only [List.mem_append, List.mem_cons] at hc
  rcases hc with ((h | h) | h) | h | ((h | h) | h)
  · exact Or.inr (mem_fmtYear dt.year c h)
  · exact Or.inr (mem_pad2 dt.month c h)
  · exact Or.inr (mem_pad2 dt.day c h)
  · exact Or.inl h
  · exact Or.inr (mem_pad2 dt.hour c h)
  · exact Or.inr (mem_pad2 dt.minute c h)
  · exact Or.inr (mem_pad2 dt.second c h)

theorem fmtCompact_ne_nl (dt : PyDateTime) : ∀ c ∈ fmtCompact dt, c ≠ '\n' := by
  intro c hc
  rcases fmtCompact_chars dt c hc with rfl | ⟨k, rfl⟩
  · decide
  · exact (digitChar_props k).1

theorem utc_local_fmt (v w : List Char) (h : utc_z_to_local_eu_amsterdam v = some w) :
    ∃ dt, w = fmtCompact dt := by
  unfold utc_z_to_local_eu_amsterdam at h
  split at h
  · exact absurd h (by simp)
  · split at h
    · exact absurd h (by simp)
    · split at h
      · exact absurd h (by simp)
      · split at h
        · split at h
          · exact absurd h (by simp)
          · exact ⟨_, by simpa using h.symm⟩
        · exact ⟨_, by simpa using h.symm⟩

def c9CexLine : List Char := "DTSTART;XTZID=1:20270101T000000".toList
def c9CexParams : List Char := ";XTZID=1".toList
def c9CexValue : List Char := "20270101T000000".toList

/-- C9 counterexample: the line `DTSTART;XTZID=1:20270101T000000` is a
start line without the whole-day indicator, yet its rewritten output (the
line itself: the substring test `TZID=` matches inside `XTZID=`) contains
no zone-identifier parameter at all, not exactly one. -/
theorem C9_cex_xtzid_suppresses_append :
    fix_dt_line c9CexLine = some c9CexLine ∧
    hasSub valueDateL c9CexLine = false ∧
    matchDtLine c9CexLine = some (dtstartL, c9CexParams, c9CexValue) ∧
    tzidCount c9CexParams = 0 := by
  refine ⟨by decide, by decide, by decide, by decide⟩

/-- C9 amended: on a matched non-whole-day start/end line the rewriter
appends a zone-identifier parameter exactly when the substring `TZID=`
does not occur in the parameter portion; consequently the output carries
exactly one `TZID` parameter provided every occurrence of the substring in
the input parameters is a genuine `TZID` parameter occurring exactly once
(an occurrence inside another parameter name such as `XTZID=` suppresses
the append and can leave zero genuine parameters). -/
theorem C9_amended_tzid_once (line k p v out : List Char)
    (hm : matchDtLine line = some (k, p, v))
    (hpre : (isPrefixL dtstartL line || isPrefixL dtendL line) = true)
    (hval : hasSub valueDateL line = false)
    (htz : hasSub tzidEqL p = true → tzidCount p = 1)
    (hout : fix_dt_line line = some out) :
    ∃ p2 v2, matchDtLine out = some (k, p2, v2) ∧ tzidCount p2 = 1 := by
  obtain ⟨hk, hpcolon, hvnl⟩ := matchDtLine_props line k p v hm
  have hP : ∀ c ∈ (if hasSub tzidEqL p = true then p else p ++ tzidSuffixL), c ≠ ':' := by
    split_ifs
    · exact hpcolon
    · intro c hc
      rcases List.mem_append.mp hc with h | h
      · exact hpcolon c h
      · have : ∀ c ∈ tzidSuffixL, c ≠ ':' := by decide
        exact this c h
  have hcount : tzidCount (if hasSub tzidEqL p = true then p else p ++ tzidSuffixL) = 1 := by
    split_ifs with hsub
    · exact htz hsub
    · exact tzidCount_append_suffix p (by simpa using hsub)
  unfold fix_dt_line at hout
  rw [if_neg (by simp [hpre]), if_neg (by simp [hval]), hm] at hout
  dsimp only at hout
  by_cases hs : (endsWithZ v && isUTCShape v) = true
  · rw [if_pos hs] at hout
    cases hc : utc_z_to_local_eu_amsterdam v with
    | none =>
      rw [hc] at hout
      exact absurd hout (by simp)
    | some w =>
      rw [hc] at hout
      dsimp only at hout
      obtain ⟨dtw, hdtw⟩ := utc_local_fmt v w hc
      have hwnl : ∀ c ∈ w, c ≠ '\n' := hdtw ▸ fmtCompact_ne_nl dtw
      have hout2 : out = k ++ (if hasSub tzidEqL p = true then p
          else p ++ tzidSuffixL) ++ ':' :: w := by
        simpa using hout.symm
      subst hout2
      exact ⟨_, w, matchDtLine_reconstruct k _ w hk hP hwnl, hcount⟩
  · rw [if_neg hs] at hout
    dsimp only at hout
    have hout2 : out = k ++ (if hasSub tzidEqL p = true then p
        else p ++ tzidSuffixL) ++ ':' :: v := by
      simpa using hout.symm
    subst hout2
    exact ⟨_, v, matchDtLine_reconstruct k _ v hk hP hvnl, hcount⟩

def c9WitnessLine : List Char := "DTEND:20260101T000000".toList
def c9WitnessValue : List Char := "20260101T000000".toList
def c9WitnessOut : List Char := "DTEND;TZID=Europe/Amsterdam:20260101T000000".toList

/-- C9 witness: the amended theorem applied to an end line without any
parameters. -/
theorem C9_amended_tzid_once_witness :
    matchDtLine c9WitnessLine = some (dtendL, [], c9WitnessValue) ∧
    fix_dt_line c9WitnessLine = some c9WitnessOut ∧
    ∃ p2 v2, matchDtLine c9WitnessOut = some (dtendL, p2, v2) ∧ tzidCount p2 = 1 :=
  ⟨by decide, by decide,
    C9_amended_tzid_once c9WitnessLine dtendL [] c9WitnessValue c9WitnessOut
      (by decide) (by decide) (by decide) (by decide) (by decide)⟩

/-! ## Claim C2: the two-step UTC-to-local resolution -/

theorem isLeap_iff (y : Nat) :
    isLeap y = true ↔ ((y % 4 = 0 ∧ y % 100 ≠ 0) ∨ y % 400 = 0) := by
  unfold isLeap
  simp [Bool.or_eq_true, Bool.and_eq_true, beq_iff_eq, bne_iff_ne]

set_option maxHeartbeats 1000000 in
theorem daysBeforeYear_succ (y : Nat) (hy : 1 ≤ y) :
    daysBeforeYear (y + 1) = daysBeforeYear y + daysInYear y := by
  unfold daysBeforeYear daysInYear
  by_cases h : isLeap y = true
  · rw [if_pos h, isLeap_iff] at *
    omega
  · rw [if_neg h]
    rw [isLeap_iff] at h
    push_neg at h
    omega

theorem daysBeforeYear_mono {a b : Nat} (h : a ≤ b) :
    daysBeforeYear a ≤ daysBeforeYear b := by
  induction b with
  | zero =>
    have : a = 0 := by omega
    subst this
    exact Nat.le_refl _
  | succ b ih =>
    rcases Nat.lt_or_ge a (b + 1) with h1 | h2
    · rcases Nat.eq_zero_or_pos b with rfl | hb
      · have ha : a = 0 := by omega
        subst ha
        decide
      · have hs := daysBeforeYear_succ b hb
        have hi := ih (by omega)
        omega
    · have hab : a = b + 1 := by omega
      rw [hab]

theorem yearFromAux_spec :
    ∀ f y n, 1 ≤ y → n + daysBeforeYear y < daysBeforeYear (y + f + 1) →
      1 ≤ (yearFromAux f y n).1 ∧ (yearFromAux f y n).1 ≤ y + f ∧
      (yearFromAux f y n).2 < daysInYear (yearFromAux f y n).1 ∧
      (yearFromAux f y n).2 + daysBeforeYear (yearFromAux f y n).1 =
        n + daysBeforeYear y := by
  intro f
  induction f with
  | zero =>
    intro y n hy h
    dsimp only [yearFromAux, Nat.add_zero] at h ⊢
    rw [daysBeforeYear_succ y hy] at h
    exact ⟨hy, Nat.le_refl y, by omega, rfl⟩
  | succ f ih =>
    intro y n hy h
    simp only [yearFromAux]
    split_ifs with hlt
    · exact ⟨hy, by omega, hlt, rfl⟩
    · have hs := daysBeforeYear_succ y hy
      have hrec := ih (y + 1) (n - daysInYear y) (by omega)
        (by
          have : y + 1 + f + 1 = y + (f + 1) + 1 := by omega
          rw [this]
          omega)
      refine ⟨hrec.1, by omega, hrec.2.2.1, ?_⟩
      rw [hrec.2.2.2]
      omega

theorem daysBeforeMonth_succ (y m : Nat) (hm : 1 ≤ m) :
    daysBeforeMonth y (m + 1) = daysBeforeMonth y m + daysInMonth y m := by
  have h : daysBeforeMonth y (m + 1) =
      if m = 0 then 0 else daysBeforeMonth y m + daysInMonth y m := rfl
  rw [h, if_neg (by omega)]

theorem daysBeforeMonth_13 (y : Nat) : daysBeforeMonth y 13 = daysInYear y := by
  have e2 : daysBeforeMonth y 2 = daysBeforeMonth y 1 + daysInMonth y 1 := daysBeforeMonth_succ y 1 (by omega)
  have e3 : daysBeforeMonth y 3 = daysBeforeMonth y 2 + daysInMonth y 2 := daysBeforeMonth_succ y 2 (by omega)
  have e4 : daysBeforeMonth y 4 = daysBeforeMonth y 3 + daysInMonth y 3 := daysBeforeMonth_succ y 3 (by omega)
  have e5 : daysBeforeMonth y 5 = daysBeforeMonth y 4 + daysInMonth y 4 := daysBeforeMonth_succ y 4 (by omega)
  have e6 : daysBeforeMonth y 6 = daysBeforeMonth y 5 + daysInMonth y 5 := daysBeforeMonth_succ y 5 (by omega)
  have e7 : daysBeforeMonth y 7 = daysBeforeMonth y 6 + daysInMonth y 6 := daysBeforeMonth_succ y 6 (by omega)
  have e8 : daysBeforeMonth y 8 = daysBeforeMonth y 7 + daysInMonth y 7 := daysBeforeMonth_succ y 7 (by omega)
  have e9 : daysBeforeMonth y 9 = daysBeforeMonth y 8 + daysInMonth y 8 := daysBeforeMonth_succ y 8 (by omega)
  have e10 : daysBeforeMonth y 10 = daysBeforeMonth y 9 + daysInMonth y 9 := daysBeforeMonth_succ y 9 (by omega)
  have e11 : daysBeforeMonth y 11 = daysBeforeMonth y 10 + daysInMonth y 10 := daysBeforeMonth_succ y 10 (by omega)
  have e12 : daysBeforeMonth y 12 = daysBeforeMonth y 11 + daysInMonth y 11 := daysBeforeMonth_succ y 11 (by omega)
  have e13 : daysBeforeMonth y 13 = daysBeforeMonth y 12 + daysInMonth y 12 := daysBeforeMonth_succ y 12 (by omega)
  have h1 : daysBeforeMonth y 1 = 0 := rfl
  have d1 : daysInMonth y 1 = 31 := rfl
  have d3 : daysInMonth y 3 = 31 := rfl
  have d4 : daysInMonth y 4 = 30 := rfl
  have d5 : daysInMonth y 5 = 31 := rfl
  have d6 : daysInMonth y 6 = 30 := rfl
  have d7 : daysInMonth y 7 = 31 := rfl
  have d8 : daysInMonth y 8 = 31 := rfl
  have d9 : daysInMonth y 9 = 30 := rfl
  have d10 : daysInMonth y 10 = 31 := rfl
  have d11 : daysInMonth y 11 = 30 := rfl
  have d12 : daysInMonth y 12 = 31 := rfl
  have d2 : daysInMonth y 2 = if isLeap y then 29 else 28 := rfl
  unfold daysInYear
  split_ifs with h
  · rw [if_pos h] at d2
    omega
  · rw [if_neg h] at d2
    omega

theorem daysBeforeMonth_mono (y : Nat) {a b : Nat} (ha : 1 ≤ a) (h : a ≤ b) :
    daysBeforeMonth y a ≤ daysBeforeMonth y b := by
  induction b with
  | zero => omega
  | succ b ih =>
    rcases Nat.lt_or_ge a (b + 1) with hab | hab
    · have hb1 : 1 ≤ b := by omega
      have := daysBeforeMonth_succ y b hb1
      have := ih (by omega)
      omega
    · have hab : a = b + 1 := by omega
      rw [hab]

theorem monthFromAux_spec (y : Nat) :
    ∀ f m n, 1 ≤ m → m + f = 13 → n + daysBeforeMonth y m < daysInYear y →
      1 ≤ (monthFromAux y f m n).1 ∧ (monthFromAux y f m n).1 ≤ 12 ∧
      (monthFromAux y f m n).2 < daysInMonth y (monthFromAux y f m n).1 ∧
      (monthFromAux y f m n).2 + daysBeforeMonth y (monthFromAux y f m n).1 =
        n + daysBeforeMonth y m := by
  intro f
  induction f with
  | zero =>
    intro m n hm hmf h
    exfalso
    have hm13 : m = 13 := by omega
    subst hm13
    have h13 := daysBeforeMonth_13 y
    omega
  | succ f ih =>
    intro m n hm hmf h
    simp only [monthFromAux]
    split_ifs with hlt
    · exact ⟨hm, by omega, hlt, rfl⟩
    · have hsucc := daysBeforeMonth_succ y m hm
      have hrec := ih (m + 1) (n - daysInMonth y m) (by omega) (by omega) (by omega)
      refine ⟨hrec.1, hrec.2.1, hrec.2.2.1, ?_⟩
      rw [hrec.2.2.2]
      omega

theorem maxSecs_lt : maxSecs < daysBeforeYear 10000 * 86400 := by decide

theorem ofDayNumber_spec (n : Nat) (h : n < daysBeforeYear 10000) :
    1 ≤ (ofDayNumber n).1 ∧ (ofDayNumber n).1 ≤ 9999 ∧
    1 ≤ (ofDayNumber n).2.1 ∧ (ofDayNumber n).2.1 ≤ 12 ∧
    1 ≤ (ofDayNumber n).2.2 ∧
    (ofDayNumber n).2.2 ≤ daysInMonth (ofDayNumber n).1 (ofDayNumber n).2.1 ∧
    daysBeforeYear (ofDayNumber n).1 + daysBeforeMonth (ofDayNumber n).1 (ofDayNumber n).2.1 +
      ((ofDayNumber n).2.2 - 1) = n := by
  have hb : n + daysBeforeYear 1 < daysBeforeYear (1 + 9999 + 1) := by
    have h0 : daysBeforeYear 1 = 0 := rfl
    have hmono : daysBeforeYear 10000 ≤ daysBeforeYear (1 + 9999 + 1) :=
      daysBeforeYear_mono (by omega)
    omega
  have hy := yearFromAux_spec 9999 1 n (by omega) hb
  have h0 : daysBeforeYear 1 = 0 := rfl
  have hy9999 : (yearFromAux 9999 1 n).1 ≤ 9999 := by
    by_contra hc
    have hge : (10000 : Nat) ≤ (yearFromAux 9999 1 n).1 := by omega
    have := daysBeforeYear_mono hge
    omega
  have hm1 : daysBeforeMonth (yearFromAux 9999 1 n).1 1 = 0 := rfl
  have hm := monthFromAux_spec (yearFromAux 9999 1 n).1 12 1 (yearFromAux 9999 1 n).2
    (by omega) (by omega) (by omega)
  have hof1 : (ofDayNumber n).1 = (yearFromAux 9999 1 n).1 := rfl
  have hof2 : (ofDayNumber n).2.1 =
      (monthFromAux (yearFromAux 9999 1 n).1 12 1 (yearFromAux 9999 1 n).2).1 := rfl
  have hof3 : (ofDayNumber n).2.2 =
      (monthFromAux (yearFromAux 9999 1 n).1 12 1 (yearFromAux 9999 1 n).2).2 + 1 := rfl
  rw [hof1, hof2, hof3]
  refine ⟨hy.1, hy9999, hm.1, hm.2.1, by omega, by omega, ?_⟩
  omega

theorem ofSecs_fields (n : Nat) :
    ofSecs n = ⟨(ofDayNumber (n / 86400)).1, (ofDayNumber (n / 86400)).2.1,
      (ofDayNumber (n / 86400)).2.2, n % 86400 / 3600, n % 86400 % 3600 / 60,
      n % 60⟩ := rfl

theorem ofSecs_valid (n : Nat) (h : n ≤ maxSecs) : validDT (ofSecs n) = true := by
  have hlt : n / 86400 < daysBeforeYear 10000 := by
    have := maxSecs_lt
    omega
  have hs := ofDayNumber_spec (n / 86400) hlt
  rw [ofSecs_fields n]
  unfold validDT dateValid
  simp only [Bool.and_eq_true, decide_eq_true_eq]
  omega

theorem ofSecs_year_range (n : Nat) (hge : daysBeforeYear 1000 * 86400 ≤ n)
    (hle : n ≤ maxSecs) : 1000 ≤ (ofSecs n).year ∧ (ofSecs n).year ≤ 9999 := by
  have hlt : n / 86400 < daysBeforeYear 10000 := by
    have := maxSecs_lt
    omega
  have hs := ofDayNumber_spec (n / 86400) hlt
  have hdiv : daysBeforeYear 1000 ≤ n / 86400 := by omega
  have hyr : (ofSecs n).year = (ofDayNumber (n / 86400)).1 := rfl
  rw [hyr]
  refine ⟨?_, hs.2.1⟩
  by_contra hc
  push_neg at hc
  have hsucc := daysBeforeMonth_succ (ofDayNumber (n / 86400)).1 (ofDayNumber (n / 86400)).2.1
    (by omega)
  have hmono := daysBeforeMonth_mono (ofDayNumber (n / 86400)).1
    (a := (ofDayNumber (n / 86400)).2.1 + 1) (b := 13) (by omega) (by omega)
  have h13 := daysBeforeMonth_13 (ofDayNumber (n / 86400)).1
  have hstep := daysBeforeYear_succ (ofDayNumber (n / 86400)).1 (by omega)
  have hmono2 : daysBeforeYear ((ofDayNumber (n / 86400)).1 + 1) ≤ daysBeforeYear 1000 :=
    daysBeforeYear_mono (by omega)
  omega

theorem dtSecs_ge_year (dt : PyDateTime) (hv : validDT dt = true) :
    daysBeforeYear dt.year * 86400 ≤ dtSecs dt := by
  unfold validDT dateValid at hv
  simp only [Bool.and_eq_true, decide_eq_true_eq] at hv
  unfold dtSecs toOrdinalYMD
  omega

theorem addHours_eq (dt : PyDateTime) (k : Nat) (h : dtSecs dt + k * 3600 ≤ maxSecs) :
    addHours dt k = some (ofSecs (dtSecs dt + k * 3600)) := by
  unfold addHours
  rw [if_pos h]

theorem validDT_year (dt : PyDateTime) (hv : validDT dt = true) :
    1 ≤ dt.year ∧ dt.year ≤ 9999 := by
  unfold validDT dateValid at hv
  simp only [Bool.and_eq_true, decide_eq_true_eq] at hv
  omega

theorem is_dst_some (dt : PyDateTime) (h1 : 1 ≤ dt.year) (h2 : dt.year ≤ 9999) :
    ∃ b, is_dst_europe_amsterdam dt = some b := by
  obtain ⟨ds, hdsEq, _⟩ := last_sunday_spec dt.year 3 h1 h2 (by norm_num [daysInMonth])
  obtain ⟨de, hdeEq, _⟩ := last_sunday_spec dt.year 10 h1 h2 (by norm_num [daysInMonth])
  unfold is_dst_europe_amsterdam
  rw [hdsEq, hdeEq]
  exact ⟨_, rfl⟩

theorem digitVal_digitChar (n : Nat) (h : n ≤ 9) :
    digitVal (digitChar n) = n ∧ isDigitC (digitChar n) = true := by
  interval_cases n <;> exact ⟨by decide, by decide⟩

theorem fmtYear_4digits (y : Nat) (h1 : 1000 ≤ y) :
    fmtYear y = [digitChar (y / 1000), digitChar (y / 100 % 10), digitChar (y / 10 % 10),
      digitChar (y % 10)] := by
  unfold fmtYear
  rw [if_neg (by omega), if_neg (by omega), if_neg (by omega)]

theorem validDT_bounds (dt : PyDateTime) (hv : validDT dt = true) :
    1 ≤ dt.year ∧ dt.year ≤ 9999 ∧ 1 ≤ dt.month ∧ dt.month ≤ 12 ∧ 1 ≤ dt.day ∧
    dt.day ≤ daysInMonth dt.year dt.month ∧ dt.hour ≤ 23 ∧ dt.minute ≤ 59 ∧
    dt.second ≤ 59 := by
  unfold validDT dateValid at hv
  simp only [Bool.and_eq_true, decide_eq_true_eq] at hv
  omega

theorem daysInMonth_le (y m : Nat) : daysInMonth y m ≤ 31 := by
  unfold daysInMonth
  split_ifs <;> omega

theorem strptime_fmt (dt : PyDateTime) (hv : validDT dt = true) (hy : 1000 ≤ dt.year) :
    strptimeUTCZ (fmtUTCZ dt) = some dt := by
  obtain ⟨b1, b2, b3, b4, b5, b6, b7, b8, b9⟩ := validDT_bounds dt hv
  have b6' : dt.day ≤ 31 := Nat.le_trans b6 (daysInMonth_le dt.year dt.month)
  have hlist : fmtUTCZ dt =
      [digitChar (dt.year / 1000), digitChar (dt.year / 100 % 10),
       digitChar (dt.year / 10 % 10), digitChar (dt.year % 10),
       digitChar (dt.month / 10), digitChar (dt.month % 10),
       digitChar (dt.day / 10), digitChar (dt.day % 10), 'T',
       digitChar (dt.hour / 10), digitChar (dt.hour % 10),
       digitChar (dt.minute / 10), digitChar (dt.minute % 10),
       digitChar (dt.second / 10), digitChar (dt.second % 10), 'Z'] := by
    unfold fmtUTCZ fmtCompact pad2
    rw [fmtYear_4digits dt.year hy]
    rfl
  have hd : ∀ k : Nat, k ≤ 9 → isDigitC (digitChar k) = true :=
    fun k hk => (digitVal_digitChar k hk).2
  have hval : ∀ k : Nat, k ≤ 9 → digitVal (digitChar k) = k :=
    fun k hk => (digitVal_digitChar k hk).1
  have c01 := hd (dt.year / 1000) (by omega)
  have c02 := hd (dt.year / 100 % 10) (by omega)
  have c03 := hd (dt.year / 10 % 10) (by omega)
  have c04 := hd (dt.year % 10) (by omega)
  have c05 := hd (dt.month / 10) (by omega)
  have c06 := hd (dt.month % 10) (by omega)
  have c07 := hd (dt.day / 10) (by omega)
  have c08 := hd (dt.day % 10) (by omega)
  have c09 := hd (dt.hour / 10) (by omega)
  have c10 := hd (dt.hour % 10) (by omega)
  have c11 := hd (dt.minute / 10) (by omega)
  have c12 := hd (dt.minute % 10) (by omega)
  have c13 := hd (dt.second / 10) (by omega)
  have c14 := hd (dt.second % 10) (by omega)
  have e01 := hval (dt.year / 1000) (by omega)
  have e02 := hval (dt.year / 100 % 10) (by omega)
  have e03 := hval (dt.year / 10 % 10) (by omega)
  have e04 := hval (dt.year % 10) (by omega)
  have e05 := hval (dt.month / 10) (by omega)
  have e06 := hval (dt.month % 10) (by omega)
  have e07 := hval (dt.day / 10) (by omega)
  have e08 := hval (dt.day % 10) (by omega)
  have e09 := hval (dt.hour / 10) (by omega)
  have e10 := hval (dt.hour % 10) (by omega)
  have e11 := hval (dt.minute / 10) (by omega)
  have e12 := hval (dt.minute % 10) (by omega)
  have e13 := hval (dt.second / 10) (by omega)
  have e14 := hval (dt.second % 10) (by omega)
  rw [hlist]
  unfold strptimeUTCZ
  dsimp only
  rw [if_pos (by
    simp only [c01, c02, c03, c04, c05, c06, c07, c08, c09, c10, c11, c12, c13, c14]
    decide)]
  rw [e01, e02, e03, e04, e05, e06, e07, e08, e09, e10, e11, e12, e13, e14]
  have hy' : dt.year / 1000 * 1000 + dt.year / 100 % 10 * 100 + dt.year / 10 % 10 * 10 +
      dt.year % 10 = dt.year := by omega
  have hmo : dt.month / 10 * 10 + dt.month % 10 = dt.month := by omega
  have hda : dt.day / 10 * 10 + dt.day % 10 = dt.day := by omega
  have hho : dt.hour / 10 * 10 + dt.hour % 10 = dt.hour := by omega
  have hmi : dt.minute / 10 * 10 + dt.minute % 10 = dt.minute := by omega
  have hse : dt.second / 10 * 10 + dt.second % 10 = dt.second := by omega
  rw [hy', hmo, hda, hho, hmi, hse]
  rw [if_pos hv]

def c2OverflowLit : List Char := "99991231T233000Z".toList

/-- C2 counterexample: the literal `99991231T233000Z` denotes a genuine
UTC instant, but adding the tentative one-hour offset overflows past
`datetime.max`, so the conversion raises instead of producing a civil
literal; the two-step resolution is not total on all UTC instants. -/
theorem C2_cex_overflow_raises :
    utc_z_to_local_eu_amsterdam c2OverflowLit = none := by decide

/-- C2 amended: for every UTC instant (with a four-digit year, and whose
shifted local time stays within the supported year range) given as its
`YYYYMMDDTHHMMSSZ` literal, the conversion adds the standard offset of one
hour, tests the candidate with the daylight predicate, recomputes with the
two-hour daylight offset when the test holds, and formats the chosen civil
time as a 15-character compact literal carrying no UTC marker. -/
theorem C2_amended_two_step (dt : PyDateTime) (hv : validDT dt = true)
    (hy : 1000 ≤ dt.year) (hr : dtSecs dt + 7200 ≤ maxSecs) :
    ∃ l1 l2 b, addHours dt 1 = some l1 ∧ addHours dt 2 = some l2 ∧
      is_dst_europe_amsterdam l1 = some b ∧
      utc_z_to_local_eu_amsterdam (fmtUTCZ dt) =
        some (fmtCompact (if b then l2 else l1)) ∧
      (fmtCompact (if b then l2 else l1)).length = 15 ∧
      'Z' ∉ fmtCompact (if b then l2 else l1) := by
  have h1eq : addHours dt 1 = some (ofSecs (dtSecs dt + 1 * 3600)) :=
    addHours_eq dt 1 (by omega)
  have h2eq : addHours dt 2 = some (ofSecs (dtSecs dt + 2 * 3600)) :=
    addHours_eq dt 2 (by omega)
  have hge1 : daysBeforeYear 1000 * 86400 ≤ dtSecs dt + 1 * 3600 := by
    have hsec := dtSecs_ge_year dt hv
    have hmono := daysBeforeYear_mono hy
    omega
  have hy1 := ofSecs_year_range (dtSecs dt + 1 * 3600) hge1 (by omega)
  have hy2 := ofSecs_year_range (dtSecs dt + 2 * 3600) (by omega) (by omega)
  obtain ⟨b, hb⟩ := is_dst_some (ofSecs (dtSecs dt + 1 * 3600)) (by omega) (by omega)
  have hsel : 1000 ≤ (if b then ofSecs (dtSecs dt + 2 * 3600)
      else ofSecs (dtSecs dt + 1 * 3600)).year := by
    cases b
    · simpa using hy1.1
    · simpa using hy2.1
  refine ⟨ofSecs (dtSecs dt + 1 * 3600), ofSecs (dtSecs dt + 2 * 3600), b,
    h1eq, h2eq, hb, ?_, ?_, ?_⟩
  · unfold utc_z_to_local_eu_amsterdam
    rw [strptime_fmt dt hv hy]
    dsimp only
    rw [h1eq]
    dsimp only
    rw [hb]
    dsimp only
    cases b
    · simp
    · rw [if_pos rfl, h2eq]
      simp
  · unfold fmtCompact
    rw [fmtYear_4digits _ hsel]
    simp [pad2]
  · intro hmem
    rcases fmtCompact_chars _ 'Z' hmem with h | ⟨k, hk⟩
    · exact absurd h (by decide)
    · exact absurd hk.symm (digitChar_props k).2.1

def c2WitnessDT : PyDateTime := ⟨2026, 6, 15, 10, 0, 0⟩

/-- C2 witness: the amended theorem applied to the June 2026 instant. -/
theorem C2_amended_two_step_witness :
    (validDT c2WitnessDT = true ∧ 1000 ≤ c2WitnessDT.year ∧
      dtSecs c2WitnessDT + 7200 ≤ maxSecs) ∧
    ∃ l1 l2 b, addHours c2WitnessDT 1 = some l1 ∧ addHours c2WitnessDT 2 = some l2 ∧
      is_dst_europe_amsterdam l1 = some b ∧
      utc_z_to_local_eu_amsterdam (fmtUTCZ c2WitnessDT) =
        some (fmtCompact (if b then l2 else l1)) ∧
      (fmtCompact (if b then l2 else l1)).length = 15 ∧
      'Z' ∉ fmtCompact (if b then l2 else l1) :=
  ⟨⟨by decide, by decide, by decide⟩,
   C2_amended_two_step c2WitnessDT (by decide) (by decide) (by decide)⟩

/-! ## Claim C10: placement and relative order of the two insertions -/

theorem fix_dt_line_out (l l2 : List Char) (h : fix_dt_line l = some l2) :
    l2 = l ∨ ∃ t, l2 = 'D' :: 'T' :: t := by
  unfold fix_dt_line at h
  split_ifs at h with h1 h2
  · exact Or.inl (Option.some.inj h).symm
  · exact Or.inl (Option.some.inj h).symm
  · cases hm : matchDtLine l with
    | none =>
      rw [hm] at h
      exact Or.inl (Option.some.inj h).symm
    | some kpv =>
      obtain ⟨k, p, v⟩ := kpv
      rw [hm] at h
      dsimp only at h
      obtain ⟨hk, _, _⟩ := matchDtLine_props l k p v hm
      cases hcv : (if (endsWithZ v && isUTCShape v) = true
          then utc_z_to_local_eu_amsterdam v else some v) with
      | none =>
        rw [hcv] at h
        exact absurd h (by simp)
      | some v2 =>
        rw [hcv] at h
        dsimp only at h
        right
        have heq := (Option.some.inj h).symm
        rcases hk with rfl | rfl
        · exact ⟨'S' :: 'T' :: 'A' :: 'R' :: 'T' ::
            ((if hasSub tzidEqL p = true then p else p ++ tzidSuffixL) ++ ':' :: v2),
            by rw [heq]; rfl⟩
        · exact ⟨'E' :: 'N' :: 'D' ::
            ((if hasSub tzidEqL p = true then p else p ++ tzidSuffixL) ++ ':' :: v2),
            by rw [heq]; rfl⟩

theorem dropWhile_append_last {p : Char → Bool} (xs : List Char) (c : Char)
    (hc : p c = false) : ∃ t, (xs ++ [c]).dropWhile p = t ++ [c] := by
  induction xs with
  | nil =>
    refine ⟨[], ?_⟩
    rw [List.nil_append]
    exact List.dropWhile_cons_of_neg (by simp [hc])
  | cons x xs ih =>
    by_cases hx : p x = true
    · obtain ⟨t, ht⟩ := ih
      refine ⟨t, ?_⟩
      rw [List.cons_append, List.dropWhile_cons_of_pos hx, ht]
    · refine ⟨x :: xs, ?_⟩
      rw [List.cons_append, List.dropWhile_cons_of_neg hx]

theorem pyStrip_head (c : Char) (xs : List Char) (hc : isSpaceC c = false) :
    ∃ t, pyStrip (c :: xs) = c :: t := by
  unfold pyStrip
  rw [List.dropWhile_cons_of_neg (by simp [hc])]
  rw [List.reverse_cons]
  obtain ⟨t, ht⟩ := dropWhile_append_last xs.reverse c hc
  rw [ht, List.reverse_append]
  exact ⟨t.reverse, by simp⟩

theorem d_head_not_marker (x : List Char) : isVcalMarker ('D' :: x) = false := by
  unfold isVcalMarker stripBOM
  rw [List.dropWhile_cons_of_neg (by decide)]
  obtain ⟨t2, ht2⟩ := pyStrip_head 'D' x (by decide)
  rw [ht2]
  have hup : pyUpper ('D' :: t2) = 'D' :: pyUpper t2 := rfl
  rw [hup, beq_eq_false_iff_ne]
  intro heq
  have hv : vcalMarkerL = 'B' :: ("EGIN:VCALENDAR").toList := rfl
  rw [hv] at heq
  have hhd : some 'D' = some 'B' := by simpa using congrArg List.head? heq
  exact absurd (Option.some.inj hhd) (by decide)

theorem d_head_not_header (x : List Char) :
    isPrefixL xwrKeyL (pyStrip ('D' :: x)) = false := by
  obtain ⟨t2, ht2⟩ := pyStrip_head 'D' x (by decide)
  rw [ht2]
  have hx : xwrKeyL = 'X' :: ("-WR-TIMEZONE:").toList := rfl
  rw [hx]
  have hstep : isPrefixL ('X' :: ("-WR-TIMEZONE:").toList) ('D' :: t2) =
      (('X' == 'D') && isPrefixL ("-WR-TIMEZONE:").toList t2) := rfl
  rw [hstep]
  simp

theorem d_head_not_block (x : List Char) :
    (pyStrip ('D' :: x) == vtBeginL) = false := by
  obtain ⟨t2, ht2⟩ := pyStrip_head 'D' x (by decide)
  rw [ht2, beq_eq_false_iff_ne]
  intro heq
  have hv : vtBeginL = 'B' :: ("EGIN:VTIMEZONE").toList := rfl
  rw [hv] at heq
  have hhd : some 'D' = some 'B' := by simpa using congrArg List.head? heq
  exact absurd (Option.some.inj hhd) (by decide)

theorem fixed_line_checks (x y : List Char) (hfix : fix_dt_line x = some y)
    (hxm : isVcalMarker x = false) (hxh : isPrefixL xwrKeyL (pyStrip x) = false)
    (hxb : (pyStrip x == vtBeginL) = false) :
    isVcalMarker y = false ∧ isPrefixL xwrKeyL (pyStrip y) = false ∧
    (pyStrip y == vtBeginL) = false := by
  rcases fix_dt_line_out x y hfix with rfl | ⟨t, rfl⟩
  · exact ⟨hxm, hxh, hxb⟩
  · exact ⟨d_head_not_marker ('T' :: t), d_head_not_header ('T' :: t),
      d_head_not_block ('T' :: t)⟩

theorem isPrefixL_head (a : Char) (as bs : List Char)
    (h : isPrefixL (a :: as) bs = true) : ∃ t, bs = a :: t := by
  cases bs with
  | nil => exact absurd h (by simp [isPrefixL])
  | cons b t =>
    have hab : ((a == b) && isPrefixL as t) = true := h
    rw [Bool.and_eq_true] at hab
    have hb := hab.1
    rw [beq_iff_eq] at hb
    exact ⟨t, by rw [hb]⟩

theorem fix_marker_id (m : List Char) (hm : isVcalMarker m = true) :
    fix_dt_line m = some m := by
  have h1 : isPrefixL dtstartL m = false := by
    by_contra hc
    rw [Bool.not_eq_false] at hc
    have hds : dtstartL = 'D' :: ("TSTART").toList := rfl
    rw [hds] at hc
    obtain ⟨t, rfl⟩ := isPrefixL_head 'D' _ m hc
    rw [d_head_not_marker t] at hm
    exact absurd hm (by decide)
  have h2 : isPrefixL dtendL m = false := by
    by_contra hc
    rw [Bool.not_eq_false] at hc
    have hds : dtendL = 'D' :: ("TEND").toList := rfl
    rw [hds] at hc
    obtain ⟨t, rfl⟩ := isPrefixL_head 'D' _ m hc
    rw [d_head_not_marker t] at hm
    exact absurd hm (by decide)
  unfold fix_dt_line
  rw [h1, h2]
  rfl

theorem marker_not_vtbegin (m : List Char) (hm : isVcalMarker m = true) :
    (pyStrip m == vtBeginL) = false := by
  cases m with
  | nil => exact absurd hm (by decide)
  | cons c rest =>
    by_cases hc : c = '﻿'
    · subst hc
      obtain ⟨t, ht⟩ := pyStrip_head '﻿' rest (by decide)
      rw [ht, beq_eq_false_iff_ne]
      intro heq
      have hv : vtBeginL = 'B' :: ("EGIN:VTIMEZONE").toList := rfl
      rw [hv] at heq
      have hhd : some '﻿' = some 'B' := by simpa using congrArg List.head? heq
      exact absurd (Option.some.inj hhd) (by decide)
    · have hsb : stripBOM (c :: rest) = c :: rest := by
        unfold stripBOM
        rw [List.dropWhile_cons_of_neg (by simp [hc])]
      unfold isVcalMarker at hm
      rw [hsb, beq_iff_eq] at hm
      by_contra hcon
      rw [Bool.not_eq_false, beq_iff_eq] at hcon
      rw [hcon] at hm
      exact absurd hm (by decide)

theorem mapFix_length : ∀ xs ys, mapFix xs = some ys → ys.length = xs.length := by
  intro xs
  induction xs with
  | nil =>
    intro ys h
    have : ys = [] := (Option.some.inj h).symm
    subst this
    rfl
  | cons x xs ih =>
    intro ys h
    unfold mapFix at h
    cases hf : fix_dt_line x with
    | none =>
      rw [hf] at h
      exact absurd h (by simp)
    | some x2 =>
      rw [hf] at h
      dsimp only at h
      cases hr : mapFix xs with
      | none =>
        rw [hr] at h
        exact absurd h (by simp)
      | some rest2 =>
        rw [hr] at h
        dsimp only at h
        have : ys = x2 :: rest2 := (Option.some.inj h).symm
        subst this
        simp [ih rest2 hr]

theorem mapFix_rel : ∀ xs ys, mapFix xs = some ys →
    ∀ y ∈ ys, ∃ x ∈ xs, fix_dt_line x = some y := by
  intro xs
  induction xs with
  | nil =>
    intro ys h y hy
    have : ys = [] := (Option.some.inj h).symm
    subst this
    exact absurd hy (List.not_mem_nil y)
  | cons x xs ih =>
    intro ys h y hy
    unfold mapFix at h
    cases hf : fix_dt_line x with
    | none =>
      rw [hf] at h
      exact absurd h (by simp)
    | some x2 =>
      rw [hf] at h
      dsimp only at h
      cases hr : mapFix xs with
      | none =>
        rw [hr] at h
        exact absurd h (by simp)
      | some rest2 =>
        rw [hr] at h
        dsimp only at h
        have : ys = x2 :: rest2 := (Option.some.inj h).symm
        subst this
        rcases List.mem_cons.mp hy with rfl | hy2
        · exact ⟨x, List.mem_cons_self x xs, hf⟩
        · obtain ⟨x3, hx3, hfx3⟩ := ih rest2 hr y hy2
          exact ⟨x3, List.mem_cons_of_mem x hx3, hfx3⟩

theorem mapFix_append_decomp (pre : List (List Char)) (m : List Char)
    (post : List (List Char)) :
    ∀ fixed, mapFix (pre ++ m :: post) = some fixed →
    ∃ fpre fm fpost, fixed = fpre ++ fm :: fpost ∧ mapFix pre = some fpre ∧
      fix_dt_line m = some fm ∧ mapFix post = some fpost := by
  induction pre with
  | nil =>
    intro fixed h
    rw [List.nil_append] at h
    unfold mapFix at h
    cases hf : fix_dt_line m with
    | none =>
      rw [hf] at h
      exact absurd h (by simp)
    | some fm =>
      rw [hf] at h
      dsimp only at h
      cases hr : mapFix post with
      | none =>
        rw [hr] at h
        exact absurd h (by simp)
      | some fpost =>
        rw [hr] at h
        dsimp only at h
        refine ⟨[], fm, fpost, ?_, rfl, rfl, rfl⟩
        exact (Option.some.inj h).symm
  | cons l pre ih =>
    intro fixed h
    rw [List.cons_append] at h
    unfold mapFix at h
    cases hf : fix_dt_line l with
    | none =>
      rw [hf] at h
      exact absurd h (by simp)
    | some l2 =>
      rw [hf] at h
      dsimp only at h
      cases hr : mapFix (pre ++ m :: post) with
      | none =>
        rw [hr] at h
        exact absurd h (by simp)
      | some rest2 =>
        rw [hr] at h
        dsimp only at h
        obtain ⟨fpre, fm, fpost, hdec, hmp, hfm, hmp2⟩ := ih rest2 hr
        refine ⟨l2 :: fpre, fm, fpost, ?_, ?_, hfm, hmp2⟩
        · rw [← (Option.some.inj h), hdec]
          rfl
        · unfold mapFix
          rw [hf, hmp]

theorem insAux_spec (ins : List Char) (pre : List (List Char)) (m : List Char)
    (post : List (List Char)) (hpre : ∀ l ∈ pre, isVcalMarker l = false)
    (hm : isVcalMarker m = true) :
    insAux ins (pre ++ m :: post) = (pre ++ m :: ins :: post, true) := by
  induction pre with
  | nil =>
    rw [List.nil_append]
    unfold insAux
    rw [if_pos hm]
    rfl
  | cons l pre ih =>
    have hl := hpre l (List.mem_cons_self l pre)
    rw [List.cons_append]
    unfold insAux
    rw [if_neg (by simp [hl]), ih (fun x hx => hpre x (List.mem_cons_of_mem l hx))]
    rfl

theorem ensure_calendar_insert (pre post : List (List Char)) (m : List Char)
    (hpre : ∀ l ∈ pre, isVcalMarker l = false) (hm : isVcalMarker m = true)
    (hnohdr : ∀ l ∈ pre ++ m :: post, isPrefixL xwrKeyL (pyStrip l) = false) :
    ensure_calendar_x_wr_timezone (pre ++ m :: post) =
      pre ++ m :: headerLineL :: post := by
  unfold ensure_calendar_x_wr_timezone
  rw [if_neg (by
    rw [List.any_eq_true]
    push_neg
    intro l hl
    simp [hnohdr l hl])]
  rw [insAux_spec headerLineL pre m post hpre hm]

theorem ensure_vtimezone_insert (pre post : List (List Char)) (m : List Char)
    (hpre : ∀ l ∈ pre, isVcalMarker l = false) (hm : isVcalMarker m = true)
    (hnoblk : ∀ l ∈ pre ++ m :: post, (pyStrip l == vtBeginL) = false) :
    ensure_vtimezone (pre ++ m :: post) = pre ++ m :: vtBlockL :: post := by
  unfold ensure_vtimezone
  rw [if_neg (by
    rw [List.any_eq_true]
    push_neg
    intro l hl
    simp [hnoblk l hl])]
  rw [insAux_spec vtBlockL pre m post hpre hm]

/-- C10: for a document with an opening-marker line and neither addition
present, the pipeline first inserts the declared-timezone header right
after the marker and then inserts the timezone-definition block at the
same anchor, so the final order is marker, block, header; each addition
appears once, right after the first marker line. -/
theorem C10_pipeline_marker_block_header (pre post : List (List Char)) (m : List Char)
    (fixed : List (List Char))
    (hpre : ∀ l ∈ pre, isVcalMarker l = false)
    (hm : isVcalMarker m = true)
    (hnohdr : ∀ l ∈ pre ++ m :: post, isPrefixL xwrKeyL (pyStrip l) = false)
    (hnoblk : ∀ l ∈ pre ++ m :: post, (pyStrip l == vtBeginL) = false)
    (hfix : mapFix (pre ++ m :: post) = some fixed) :
    ∃ fpre fpost, fixed = fpre ++ m :: fpost ∧ fpre.length = pre.length ∧
      (∀ l ∈ fpre, isVcalMarker l = false) ∧
      processedLines (pre ++ m :: post) =
        some (fpre ++ m :: vtBlockL :: headerLineL :: fpost) := by
  obtain ⟨fpre, fm, fpost, hdec, hmp, hfm, hmp2⟩ := mapFix_append_decomp pre m post fixed hfix
  have hfmm : m = fm := by
    rw [fix_marker_id m hm] at hfm
    exact Option.some.inj hfm
  subst hfmm
  have hchk : ∀ y ∈ fpre, isVcalMarker y = false ∧
      isPrefixL xwrKeyL (pyStrip y) = false ∧ (pyStrip y == vtBeginL) = false := by
    intro y hy
    obtain ⟨x, hx, hfx⟩ := mapFix_rel pre fpre hmp y hy
    exact fixed_line_checks x y hfx (hpre x hx)
      (hnohdr x (List.mem_append_left _ hx)) (hnoblk x (List.mem_append_left _ hx))
  have hchk2 : ∀ y ∈ fpost, isPrefixL xwrKeyL (pyStrip y) = false ∧
      (pyStrip y == vtBeginL) = false := by
    intro y hy
    obtain ⟨x, hx, hfx⟩ := mapFix_rel post fpost hmp2 y hy
    have hxmem : x ∈ pre ++ m :: post :=
      List.mem_append_right _ (List.mem_cons_of_mem m hx)
    rcases fix_dt_line_out x y hfx with rfl | ⟨t, rfl⟩
    · exact ⟨hnohdr y hxmem, hnoblk y hxmem⟩
    · exact ⟨d_head_not_header ('T' :: t), d_head_not_block ('T' :: t)⟩
  have hmmem : m ∈ pre ++ m :: post :=
    List.mem_append_right _ (List.mem_cons_self m post)
  have hec : ensure_calendar_x_wr_timezone (fpre ++ m :: fpost) =
      fpre ++ m :: headerLineL :: fpost := by
    refine ensure_calendar_insert fpre fpost m (fun l hl => (hchk l hl).1) hm ?_
    intro l hl
    rcases List.mem_append.mp hl with h1 | h1
    · exact (hchk l h1).2.1
    · rcases List.mem_cons.mp h1 with rfl | h2
      · exact hnohdr l hmmem
      · exact (hchk2 l h2).1
  have hev : ensure_vtimezone (fpre ++ m :: headerLineL :: fpost) =
      fpre ++ m :: vtBlockL :: headerLineL :: fpost := by
    refine ensure_vtimezone_insert fpre (headerLineL :: fpost) m
      (fun l hl => (hchk l hl).1) hm ?_
    intro l hl
    rcases List.mem_append.mp hl with h1 | h1
    · exact (hchk l h1).2.2
    · rcases List.mem_cons.mp h1 with rfl | h2
      · exact marker_not_vtbegin l hm
      · rcases List.mem_cons.mp h2 with rfl | h3
        · decide
        · exact (hchk2 l h3).2
  refine ⟨fpre, fpost, hdec, mapFix_length pre fpre hmp, fun l hl => (hchk l hl).1, ?_⟩
  unfold processedLines
  rw [hfix]
  have hmap : (some fixed).map augmentDoc = some (augmentDoc fixed) := rfl
  rw [hmap, hdec]
  unfold augmentDoc
  rw [hec, hev]

def c10WitnessDoc1 : List Char := "BEGIN:VEVENT".toList
def c10WitnessPost : List (List Char) := ["BEGIN:VEVENT".toList, endVcalL]

/-- C10 witness: the theorem applied to a small calendar whose marker is
followed by an event line and the closing line. -/
theorem C10_pipeline_marker_block_header_witness :
    (∀ l ∈ ([] : List (List Char)), isVcalMarker l = false) ∧
    isVcalMarker vcalMarkerL = true ∧
    (∀ l ∈ [] ++ vcalMarkerL :: c10WitnessPost,
      isPrefixL xwrKeyL (pyStrip l) = false) ∧
    (∀ l ∈ [] ++ vcalMarkerL :: c10WitnessPost, (pyStrip l == vtBeginL) = false) ∧
    mapFix ([] ++ vcalMarkerL :: c10WitnessPost) =
      some (vcalMarkerL :: c10WitnessPost) ∧
    ∃ fpre fpost, vcalMarkerL :: c10WitnessPost = fpre ++ vcalMarkerL :: fpost ∧
      fpre.length = ([] : List (List Char)).length ∧
      (∀ l ∈ fpre, isVcalMarker l = false) ∧
      processedLines ([] ++ vcalMarkerL :: c10WitnessPost) =
        some (fpre ++ vcalMarkerL :: vtBlockL :: headerLineL :: fpost) :=
  ⟨by decide, by decide, by decide, by decide, by decide,
   C10_pipeline_marker_block_header [] c10WitnessPost vcalMarkerL
     (vcalMarkerL :: c10WitnessPost) (by decide) (by decide) (by decide) (by decide)
     (by decide)⟩
